import Mathlib

/-!
Verification development for the AssignmentAutomata repository.

The repository contains two automaton engines:
* `SoalSatu/pushdown_automata.py`: a generic pushdown automaton (PDA) engine,
  with validators (`expression_validator.py`) and converters
  (`expression_converter.py`) for infix/postfix/prefix expressions built on it;
* `SoalDua/state_machine.py`: a trie-based combo (pattern) matcher.

Python strings are modelled as `String` where they are treated atomically
(state names, PDA input-symbol classes, stack symbols, stack-action strings)
and as `List Char` where the code processes them character by character
(expressions and their tokens).  Python lists used as stacks with
`append`/`pop()` at the end are modelled top-first (head = Python's last
element) where noted.  Presentation-only data (state descriptions, diagram
exports, human-readable trace strings) is omitted; the stack's operation
history is kept.  Error-message strings are modelled by the inductive type
`Msg`, with one constructor per distinct format string in the source.
-/

namespace AutomataSpec

/-! ### String helpers mirroring the Python operations used by the source -/

/-- Python `s.startswith(p)`. -/
def strStartsWith (s p : String) : Bool := p.data.isPrefixOf s.data

/-- Python `s[n:]`. -/
def strDrop (s : String) (n : Nat) : String := String.mk (s.data.drop n)

/-- Python dict read `d.get(key)` / `d[key]` (repository dicts are keyed by strings). -/
def alookup {α : Type} : List (String × α) → String → Option α
  | [], _ => none
  | (k, v) :: r, key => if k = key then some v else alookup r key

/-- Python dict write `d[key] = v`: replace in place if the key exists, else append. -/
def aupdate {α : Type} : List (String × α) → String → α → List (String × α)
  | [], key, v => [(key, v)]
  | (k, w) :: r, key, v => if k = key then (k, v) :: r else (k, w) :: aupdate r key v

/-! ### `pushdown_automata.py`: states, transitions, stack, engine -/

/-- `StateType` enum. -/
inductive StateType where
  | INITIAL
  | NORMAL
  | ACCEPTING
  | ERROR
deriving DecidableEq

/-- `PDAState` (the presentation-only `description` field is omitted).
Python equality on `PDAState` compares names only; the engine below always
compares states through `.name`, mirroring `PDAState.__eq__`. -/
structure PdaState where
  name : String
  stateType : StateType
deriving DecidableEq

/-- `PDATransition` (presentation-only `description` omitted).  `stack_action`
is kept as a raw string parsed at execution time, as in the source. -/
structure PdaTransition where
  fromState : PdaState
  toState : PdaState
  inputSymbol : Option String
  stackTop : Option String
  stackAction : String
deriving DecidableEq

/-- `PDATransition.matches`.  In Python, `input_sym`/`stack_top` are optional
strings and `!=` on `str` vs `None` is inequality, which `Option` equality
mirrors exactly. -/
def PdaTransition.matchesCfg (t : PdaTransition) (cur : PdaState)
    (inp stk : Option String) : Bool :=
  if t.fromState.name ≠ cur.name then false
  else if t.inputSymbol.isSome ∧ t.inputSymbol ≠ inp then false
  else if t.stackTop.isSome ∧ t.stackTop ≠ stk then false
  else true

/-- `PDAStack`: `stackL` is the Python `_stack` list, bottom sentinel first,
top last; `historyS` is `_history`. -/
structure PdaStack where
  stackL : List String
  historyS : List (String × List String)
  initSym : String
deriving DecidableEq

/-- `PDAStack.__init__`. -/
def PdaStack.fresh (initSym : String) : PdaStack := ⟨[initSym], [], initSym⟩

/-- `PDAStack.push`. -/
def PdaStack.pushS (st : PdaStack) (sym : String) : PdaStack :=
  { st with stackL := st.stackL ++ [sym],
            historyS := st.historyS ++ [("push:" ++ sym, st.stackL ++ [sym])] }

/-- `PDAStack.pop`: returns the popped symbol (or `none`) and the new stack;
only pops when more than the bottom marker is present. -/
def PdaStack.popS (st : PdaStack) : Option String × PdaStack :=
  if 1 < st.stackL.length then
    match st.stackL.getLast? with
    | some sym =>
        (some sym, { st with stackL := st.stackL.dropLast,
                             historyS := st.historyS ++ [("pop:" ++ sym, st.stackL.dropLast)] })
    | none => (none, st)
  else (none, st)

/-- `PDAStack.peek`. -/
def PdaStack.peekS (st : PdaStack) : Option String := st.stackL.getLast?

/-- `PDAStack.is_empty`: true iff only the bottom marker remains. -/
def PdaStack.isEmptyS (st : PdaStack) : Bool := st.stackL.length ≤ 1

/-- `PDAStack.clear`. -/
def PdaStack.clearS (st : PdaStack) : PdaStack :=
  { st with stackL := [st.initSym], historyS := [] }

/-- `PDAStack.get_contents`. -/
def PdaStack.contents (st : PdaStack) : List String := st.stackL

/-- `PDAConfiguration` snapshot. -/
structure PdaConfigR where
  state : PdaState
  remainingInput : String
  stackContents : List String
deriving DecidableEq

/-- `PushdownAutomata`.  In Python `initial_state`/`current_state` start as
`None` and are set by the first `add_state(..., INITIAL)`; every configured
PDA in the repository adds its initial state first, so they are modelled
non-optionally with a placeholder that configuration overwrites.  The
`input_alphabet`/`stack_alphabet` sets feed only the diagram export and are
omitted. -/
structure Pda where
  states : List (String × PdaState)
  transitions : List PdaTransition
  initialState : PdaState
  currentState : PdaState
  stack : PdaStack
  execHistory : List PdaConfigR
  transHistory : List PdaTransition
deriving DecidableEq

/-- `PushdownAutomata.__init__` (placeholder state stands for Python's `None`). -/
def Pda.mkEmpty : Pda :=
  { states := [], transitions := [],
    initialState := ⟨"", StateType.NORMAL⟩, currentState := ⟨"", StateType.NORMAL⟩,
    stack := PdaStack.fresh ("Z0"), execHistory := [], transHistory := [] }

/-- `PushdownAutomata.add_state`. -/
def Pda.addState (m : Pda) (name : String) (stateType : StateType) : Pda :=
  let st : PdaState := ⟨name, stateType⟩
  let m1 := { m with states := aupdate m.states name st }
  if stateType = StateType.INITIAL then
    { m1 with initialState := st, currentState := st }
  else m1

/-- `PushdownAutomata.add_transition`.  Python raises `KeyError` when a state
name is missing; that never happens in the repository's configurations, and
the missing-state case is modelled as a no-op. -/
def Pda.addTransition (m : Pda) (fromState toState : String)
    (inputSymbol stackTop : Option String) (stackAction : String) : Pda :=
  match alookup m.states fromState, alookup m.states toState with
  | some fs, some ts =>
      { m with transitions := m.transitions ++ [⟨fs, ts, inputSymbol, stackTop, stackAction⟩] }
  | _, _ => m

/-- `PushdownAutomata.reset`. -/
def Pda.resetPda (m : Pda) : Pda :=
  { m with currentState := m.initialState, stack := m.stack.clearS,
           execHistory := [], transHistory := [] }

/-- `PushdownAutomata._execute_stack_action`.  Note that the `replace:` branch
ignores the result of the pop and always succeeds, unlike the `pop` branch. -/
def executeStackAction (st : PdaStack) (action : String) : PdaStack × Bool :=
  if action = "none" then (st, true)
  else if strStartsWith action ("push:") then (st.pushS (strDrop action 5), true)
  else if action = "pop" then
    let r := st.popS
    (r.2, r.1.isSome)
  else if strStartsWith action ("replace:") then
    let r := st.popS
    (r.2.pushS (strDrop action 8), true)
  else (st, false)

/-- `PushdownAutomata._find_transition` (the input symbol is always a string
when called from `step`, so the epsilon retry is unconditional). -/
def Pda.findTransition (m : Pda) (inputSymbol : String) : Option PdaTransition :=
  let stackTop := m.stack.peekS
  match m.transitions.find? (fun t => t.matchesCfg m.currentState (some inputSymbol) stackTop) with
  | some t => some t
  | none => m.transitions.find? (fun t => t.matchesCfg m.currentState none stackTop)

/-- Error and result messages, one constructor per distinct format string in
the source (the constructor arguments are the interpolated values). -/
inductive Nt where
  | ntIn
  | ntPost
  | ntPre
deriving DecidableEq

inductive Msg where
  | noValidTransition (inputSymbol stateName : String)
  | stackActionFailed (action : String)
  | inputAccepted
  | endedInErrorState
  | endedNonAccepting (stateName : String)
  | emptyExpression
  | invalidToken (token : List Char)
  | validExpression (nt : Nt)
  | unmatchedOpenParen
  | expressionIncomplete (finalState : String)
  | parensNotAllowed (nt : Nt)
  | notEnoughOperands (token : List Char)
  | tooManyOperands (count : Nat)
  | noResultIncomplete
deriving DecidableEq

/-- The configuration snapshot `step` records before acting. -/
def Pda.recordCfg (m : Pda) (inputSymbol : String) : Pda :=
  { m with execHistory := m.execHistory ++ [⟨m.currentState, inputSymbol, m.stack.contents⟩] }

/-- `PushdownAutomata.step`.  On a missing transition, the source first moves
`current_state` to `q_error` (when configured) and only then formats the
message from `self.current_state.name`. -/
def Pda.stepPda (m : Pda) (inputSymbol : String) : Pda × Bool × Option Msg :=
  let m1 := m.recordCfg inputSymbol
  match m1.findTransition inputSymbol with
  | none =>
    match alookup m1.states ("q_error") with
    | some es =>
        let m2 := { m1 with currentState := es }
        (m2, false, some (Msg.noValidTransition inputSymbol m2.currentState.name))
    | none => (m1, false, some (Msg.noValidTransition inputSymbol m1.currentState.name))
  | some t =>
    match executeStackAction m1.stack t.stackAction with
    | (st', false) =>
        let m2 := { m1 with stack := st' }
        match alookup m2.states ("q_error") with
        | some es => ({ m2 with currentState := es }, false, some (Msg.stackActionFailed t.stackAction))
        | none => (m2, false, some (Msg.stackActionFailed t.stackAction))
    | (st', true) =>
        ({ m1 with stack := st', currentState := t.toState,
                   transHistory := m1.transHistory ++ [t] }, true, none)

/-- The symbol loop inside `PushdownAutomata.process`, stopping at the first
failing step. -/
def Pda.runLoop (m : Pda) (syms : List String) : Pda × Bool × Option Msg :=
  match syms with
  | [] => (m, true, none)
  | s :: rest =>
    match m.stepPda s with
    | (m', true, _) => m'.runLoop rest
    | (m', false, e) => (m', false, e)

/-- `PushdownAutomata.process`.  The message is `Option Msg` because the
failing step's message is typed optional in the source; every reachable
failure carries one. -/
def Pda.processPda (m : Pda) (syms : List String) : Bool × Option Msg × List PdaConfigR :=
  let m0 := m.resetPda
  match m0.runLoop syms with
  | (m', false, e) => (false, e, m'.execHistory)
  | (m', true, _) =>
    match m'.currentState.stateType with
    | StateType.ACCEPTING => (true, some Msg.inputAccepted, m'.execHistory)
    | StateType.ERROR => (false, some Msg.endedInErrorState, m'.execHistory)
    | _ => (false, some (Msg.endedNonAccepting m'.currentState.name), m'.execHistory)

/-! ### Lemmas about the stack-action string parser -/

theorem isPrefixOfAppendSelf {α : Type} [BEq α] [LawfulBEq α] (p t : List α) :
    p.isPrefixOf (p ++ t) = true := by
  induction p with
  | nil => simp [List.isPrefixOf]
  | cons a as ih => simp [List.isPrefixOf, ih]

theorem strStartsWithAppend (p x : String) : strStartsWith (p ++ x) p = true := by
  unfold strStartsWith
  rw [String.data_append]
  exact isPrefixOfAppendSelf _ _

theorem execActionNone (st : PdaStack) : executeStackAction st ("none") = (st, true) := by
  simp [executeStackAction]

theorem execActionPop (st : PdaStack) :
    executeStackAction st ("pop") = (st.popS.2, st.popS.1.isSome) := by
  unfold executeStackAction
  rw [if_neg (by decide), if_neg (by decide), if_pos rfl]

theorem execActionPush (st : PdaStack) (x : String) :
    executeStackAction st ("push:" ++ x) = (st.pushS x, true) := by
  have h1 : ¬ ("push:" ++ x) = "none" := by
    intro h
    have h2 := congrArg String.data h
    simp [String.data_append] at h2
  have h2 : strStartsWith ("push:" ++ x) ("push:") = true := strStartsWithAppend _ _
  have h3 : strDrop ("push:" ++ x) 5 = x := by
    unfold strDrop
    rw [String.data_append]
    rfl
  unfold executeStackAction
  rw [if_neg h1, if_pos h2, h3]

theorem execActionReplace (st : PdaStack) (x : String) :
    executeStackAction st ("replace:" ++ x) = (st.popS.2.pushS x, true) := by
  have h1 : ¬ ("replace:" ++ x) = "none" := by
    intro h
    have h2 := congrArg String.data h
    simp [String.data_append] at h2
  have h2 : strStartsWith ("replace:" ++ x) ("push:") = false := by
    have hd : ("replace:" ++ x).data = 'r' :: 'e' :: 'p' :: 'l' :: 'a' :: 'c' :: 'e' :: ':' :: x.data := by
      simp [String.data_append]
    unfold strStartsWith
    rw [hd]
    rfl
  have h3 : ¬ ("replace:" ++ x) = "pop" := by
    intro h
    have h2 := congrArg String.data h
    simp [String.data_append] at h2
  have h4 : strStartsWith ("replace:" ++ x) ("replace:") = true := strStartsWithAppend _ _
  have h5 : strDrop ("replace:" ++ x) 8 = x := by
    unfold strDrop
    rw [String.data_append]
    rfl
  unfold executeStackAction
  rw [if_neg h1, if_neg (by rw [h2]; simp), if_neg h3, if_pos h4, h5]

/-! ### Characterizations of `step`, by case -/

theorem recordCfg_findTransition (m : Pda) (s s' : String) :
    (m.recordCfg s).findTransition s' = m.findTransition s' := rfl

theorem recordCfg_states (m : Pda) (s : String) : (m.recordCfg s).states = m.states := rfl

theorem recordCfg_stack (m : Pda) (s : String) : (m.recordCfg s).stack = m.stack := rfl

theorem recordCfg_currentState (m : Pda) (s : String) :
    (m.recordCfg s).currentState = m.currentState := rfl

theorem recordCfg_transHistory (m : Pda) (s : String) :
    (m.recordCfg s).transHistory = m.transHistory := rfl

theorem stepPda_noTrans_err (m : Pda) (sym : String) (es : PdaState)
    (h : m.findTransition sym = none) (he : alookup m.states ("q_error") = some es) :
    m.stepPda sym = ({ m.recordCfg sym with currentState := es }, false,
      some (Msg.noValidTransition sym es.name)) := by
  simp only [Pda.stepPda, recordCfg_findTransition, recordCfg_states, h, he]

theorem stepPda_noTrans_noErr (m : Pda) (sym : String)
    (h : m.findTransition sym = none) (he : alookup m.states ("q_error") = none) :
    m.stepPda sym = (m.recordCfg sym, false,
      some (Msg.noValidTransition sym m.currentState.name)) := by
  simp only [Pda.stepPda, recordCfg_findTransition, recordCfg_states,
             recordCfg_currentState, h, he]

theorem stepPda_ok (m : Pda) (sym : String) (t : PdaTransition) (st' : PdaStack)
    (h : m.findTransition sym = some t)
    (ha : executeStackAction m.stack t.stackAction = (st', true)) :
    m.stepPda sym = ({ m.recordCfg sym with
        stack := st', currentState := t.toState,
        transHistory := m.transHistory ++ [t] }, true, none) := by
  simp only [Pda.stepPda, recordCfg_findTransition, recordCfg_stack,
             recordCfg_transHistory, h, ha]

theorem stepPda_fail_err (m : Pda) (sym : String) (t : PdaTransition) (st' : PdaStack)
    (es : PdaState) (h : m.findTransition sym = some t)
    (ha : executeStackAction m.stack t.stackAction = (st', false))
    (he : alookup m.states ("q_error") = some es) :
    m.stepPda sym = ({ m.recordCfg sym with stack := st', currentState := es }, false,
      some (Msg.stackActionFailed t.stackAction)) := by
  simp only [Pda.stepPda, recordCfg_findTransition, recordCfg_stack,
             recordCfg_states, h, ha, he]

theorem stepPda_fail_noErr (m : Pda) (sym : String) (t : PdaTransition) (st' : PdaStack)
    (h : m.findTransition sym = some t)
    (ha : executeStackAction m.stack t.stackAction = (st', false))
    (he : alookup m.states ("q_error") = none) :
    m.stepPda sym = ({ m.recordCfg sym with stack := st' }, false,
      some (Msg.stackActionFailed t.stackAction)) := by
  simp only [Pda.stepPda, recordCfg_findTransition, recordCfg_stack,
             recordCfg_states, h, ha, he]

/-! ### C8: the bottom sentinel is never removed -/

/-- The stack operations a PDA can perform, executed through
`_execute_stack_action` (push/pop/replace) and `PDAStack.clear`. -/
inductive StackOp where
  | opPush (sym : String)
  | opPop
  | opReplace (sym : String)
  | opClear
deriving DecidableEq

def applyStackOp (st : PdaStack) : StackOp → PdaStack
  | StackOp.opPush s => (executeStackAction st ("push:" ++ s)).1
  | StackOp.opPop => (executeStackAction st ("pop")).1
  | StackOp.opReplace s => (executeStackAction st ("replace:" ++ s)).1
  | StackOp.opClear => st.clearS

def applyStackOps (st : PdaStack) (ops : List StackOp) : PdaStack :=
  ops.foldl applyStackOp st

theorem popS_of_isEmpty (st : PdaStack) (h : st.isEmptyS = true) : st.popS = (none, st) := by
  unfold PdaStack.isEmptyS at h
  simp only [decide_eq_true_eq] at h
  unfold PdaStack.popS
  rw [if_neg (by omega)]

theorem popS_spec (st : PdaStack) (hlen : 1 < st.stackL.length) :
    ∃ sym, st.stackL.getLast? = some sym ∧
      st.popS = (some sym,
        { st with
            stackL := st.stackL.dropLast,
            historyS := st.historyS ++ [("pop:" ++ sym, st.stackL.dropLast)] }) := by
  cases hgl : st.stackL.getLast? with
  | none =>
    exfalso
    rw [List.getLast?_eq_none_iff.1 hgl] at hlen
    simp at hlen
  | some sym =>
    refine ⟨sym, rfl, ?_⟩
    unfold PdaStack.popS
    rw [if_pos hlen, hgl]

theorem stackOp_preserves (st : PdaStack) (op : StackOp) (rest : List String)
    (h : st.stackL = st.initSym :: rest) :
    ∃ r', (applyStackOp st op).stackL = st.initSym :: r'
      ∧ (applyStackOp st op).initSym = st.initSym := by
  cases op with
  | opPush s =>
    refine ⟨rest ++ [s], ?_, ?_⟩ <;>
      simp [applyStackOp, execActionPush, PdaStack.pushS, h]
  | opPop =>
    by_cases hr : rest = []
    · refine ⟨rest, ?_, ?_⟩ <;>
        simp [applyStackOp, execActionPop, PdaStack.popS, h, hr]
    · have hlen : 1 < st.stackL.length := by
        rw [h]
        have := List.length_pos.2 hr
        simp
        omega
      obtain ⟨sym, _, hpop⟩ := popS_spec st hlen
      refine ⟨rest.dropLast, ?_, ?_⟩ <;>
        simp [applyStackOp, execActionPop, hpop, h, List.dropLast_cons_of_ne_nil hr]
  | opReplace s =>
    by_cases hr : rest = []
    · refine ⟨[s], ?_, ?_⟩ <;>
        simp [applyStackOp, execActionReplace, PdaStack.popS, PdaStack.pushS, h, hr]
    · have hlen : 1 < st.stackL.length := by
        rw [h]
        have := List.length_pos.2 hr
        simp
        omega
      obtain ⟨sym, _, hpop⟩ := popS_spec st hlen
      refine ⟨rest.dropLast ++ [s], ?_, ?_⟩ <;>
        simp [applyStackOp, execActionReplace, PdaStack.pushS, hpop, h,
              List.dropLast_cons_of_ne_nil hr]
  | opClear =>
    exact ⟨[], by simp [applyStackOp, PdaStack.clearS, h], rfl⟩

theorem stackOps_preserve (ops : List StackOp) (st : PdaStack) (rest : List String)
    (h : st.stackL = st.initSym :: rest) :
    ∃ r', (applyStackOps st ops).stackL = st.initSym :: r'
      ∧ (applyStackOps st ops).initSym = st.initSym := by
  induction ops generalizing st rest with
  | nil => exact ⟨rest, h, rfl⟩
  | cons op ops ih =>
    obtain ⟨r1, h1, h2⟩ := stackOp_preserves st op rest h
    obtain ⟨r2, h3, h4⟩ := ih (applyStackOp st op) r1 (by rw [h1, h2])
    refine ⟨r2, ?_, ?_⟩
    · show (applyStackOps (applyStackOp st op) ops).stackL = st.initSym :: r2
      rw [h3, h2]
    · show (applyStackOps (applyStackOp st op) ops).initSym = st.initSym
      rw [h4, h2]

/-- C8: for every sequence of push, pop, replace and clear operations starting
from a fresh PDA stack, the bottom sentinel is never removed (the stack list
always starts with the sentinel), `is_empty()` is true exactly when only the
sentinel remains, popping a sentinel-only stack returns nothing and leaves the
stack unchanged, and a failed empty-stack pop during a PDA `step` leaves
`is_empty()` true. -/
theorem c8StackSentinelInvariant (init : String) (ops : List StackOp)
    (pda : Pda) (sym : String) (t : PdaTransition)
    (hft : pda.findTransition sym = some t) (hact : t.stackAction = "pop")
    (hemp : pda.stack.isEmptyS = true) :
    (∃ rest, (applyStackOps (PdaStack.fresh init) ops).stackL = init :: rest)
    ∧ ((applyStackOps (PdaStack.fresh init) ops).isEmptyS = true
        ↔ (applyStackOps (PdaStack.fresh init) ops).stackL = [init])
    ∧ (∀ st : PdaStack, st.isEmptyS = true → st.popS = (none, st))
    ∧ (pda.stepPda sym).2.1 = false
    ∧ (pda.stepPda sym).1.stack.isEmptyS = true := by
  obtain ⟨r, hr, hinit⟩ := stackOps_preserve ops (PdaStack.fresh init) [] rfl
  have hfr : (PdaStack.fresh init).initSym = init := rfl
  rw [hfr] at hr hinit
  refine ⟨⟨r, hr⟩, ?_, popS_of_isEmpty, ?_, ?_⟩
  · constructor
    · intro hie
      unfold PdaStack.isEmptyS at hie
      rw [hr] at hie
      simp only [decide_eq_true_eq, List.length_cons] at hie
      have hr0 : r = [] := by
        cases r with
        | nil => rfl
        | cons a l => simp at hie
      simp [hr, hr0]
    · intro hh
      unfold PdaStack.isEmptyS
      rw [hh]
      rfl
  all_goals {
    have hpop := popS_of_isEmpty pda.stack hemp
    have ha : executeStackAction pda.stack t.stackAction = (pda.stack, false) := by
      rw [hact, execActionPop, hpop]
      rfl
    cases halk : alookup pda.states ("q_error") with
    | none => rw [stepPda_fail_noErr pda sym t pda.stack hft ha halk] <;> simpa using hemp
    | some es => rw [stepPda_fail_err pda sym t pda.stack es hft ha halk] <;> simpa using hemp
  }

def pdaC8 : Pda :=
  (Pda.mkEmpty.addState ("q0") StateType.INITIAL).addTransition
    ("q0") ("q0") (some "a") none ("pop")

theorem c8Witness :
    (∃ rest, (applyStackOps (PdaStack.fresh ("Z0"))
        [StackOp.opPush "A", StackOp.opPop, StackOp.opReplace "B", StackOp.opClear]).stackL
        = "Z0" :: rest)
    ∧ (pdaC8.stepPda "a").2.1 = false
    ∧ (pdaC8.stepPda "a").1.stack.isEmptyS = true := by
  have h := c8StackSentinelInvariant ("Z0")
    [StackOp.opPush "A", StackOp.opPop, StackOp.opReplace "B", StackOp.opClear]
    pdaC8 "a" ⟨⟨"q0", StateType.INITIAL⟩, ⟨"q0", StateType.INITIAL⟩, some "a", none, "pop"⟩
    (by decide) (by decide) (by decide)
  exact ⟨h.1, h.2.2.2.1, h.2.2.2.2⟩

/-! ### C1: `replace` on a sentinel-only stack -/

/-- Concrete PDA whose only transition performs `replace:Y`. -/
def pdaC1 : Pda :=
  ((Pda.mkEmpty.addState ("q0") StateType.INITIAL).addState
      ("q_error") StateType.ERROR).addTransition
    ("q0") ("q0") (some "a") none ("replace:Y")

/-- C1 counterexample: with the stack holding only the bottom sentinel, a step
whose selected transition has a `replace` stack action succeeds (the failed
pop inside `replace` is ignored), instead of failing to the error state as the
claim states. -/
theorem c1Counterexample :
    pdaC1.stack.stackL = ["Z0"]
    ∧ (pdaC1.findTransition "a").map PdaTransition.stackAction = some ("replace:Y")
    ∧ (pdaC1.stepPda "a").2.1 = true
    ∧ (pdaC1.stepPda "a").2.2 = none
    ∧ (pdaC1.stepPda "a").1.currentState.name = "q0" := by
  decide

/-- C1 amended: when `step` selects a transition whose stack action is
`replace(x)` and the stack holds only the bottom sentinel, the step succeeds:
the failed pop is ignored, `x` is pushed on top of the sentinel, and the PDA
moves to the transition's target state. -/
theorem c1ReplaceOnEmptySucceeds (pda : Pda) (sym x : String) (t : PdaTransition)
    (hft : pda.findTransition sym = some t)
    (hact : t.stackAction = "replace:" ++ x)
    (hsent : pda.stack.stackL = [pda.stack.initSym]) :
    (pda.stepPda sym).2.1 = true
    ∧ (pda.stepPda sym).2.2 = none
    ∧ (pda.stepPda sym).1.stack.stackL = [pda.stack.initSym, x]
    ∧ (pda.stepPda sym).1.currentState = t.toState := by
  have hpop : pda.stack.popS = (none, pda.stack) := by
    apply popS_of_isEmpty
    unfold PdaStack.isEmptyS
    rw [hsent]
    rfl
  have ha : executeStackAction pda.stack t.stackAction = (pda.stack.pushS x, true) := by
    rw [hact, execActionReplace, hpop]
  rw [stepPda_ok pda sym t (pda.stack.pushS x) hft ha]
  simp [PdaStack.pushS, hsent]

theorem c1Witness :
    (pdaC1.stepPda "a").2.1 = true
    ∧ (pdaC1.stepPda "a").1.stack.stackL = ["Z0", "Y"] := by
  have h := c1ReplaceOnEmptySucceeds pdaC1 "a" "Y"
    ⟨⟨"q0", StateType.INITIAL⟩, ⟨"q0", StateType.INITIAL⟩, some "a", none, "replace:Y"⟩
    (by decide) (by decide) (by decide)
  exact ⟨h.1, h.2.2.1⟩

/-! ### C9: the state named in the no-transition error message -/

/-- Concrete PDA with an error state and no transitions at all. -/
def pdaC9 : Pda :=
  (Pda.mkEmpty.addState ("q0") StateType.INITIAL).addState ("q_error") StateType.ERROR

/-- C9 counterexample: the PDA is in state `q0` when symbol `"a"` is processed
and no transition matches, yet the failure message names `q_error` (the state
entered by the error transition), not `q0`. -/
theorem c9Counterexample :
    pdaC9.currentState.name = "q0"
    ∧ pdaC9.findTransition "a" = none
    ∧ (pdaC9.stepPda "a").2.2 = some (Msg.noValidTransition "a" "q_error")
    ∧ Msg.noValidTransition "a" "q_error" ≠ Msg.noValidTransition "a" "q0" := by
  decide

/-- C9 amended: when no transition matches, the failure message names the
state the PDA is in after the error handling: the `q_error` state when one is
configured, and only otherwise the state in which no transition matched. -/
theorem c9NoTransitionMessage (pda : Pda) (sym : String)
    (hft : pda.findTransition sym = none) :
    (∀ es : PdaState, alookup pda.states ("q_error") = some es →
        (pda.stepPda sym).2 = (false, some (Msg.noValidTransition sym es.name))
        ∧ (pda.stepPda sym).1.currentState = es)
    ∧ (alookup pda.states ("q_error") = none →
        (pda.stepPda sym).2 = (false, some (Msg.noValidTransition sym pda.currentState.name))
        ∧ (pda.stepPda sym).1.currentState = pda.currentState) := by
  constructor
  · intro es hes
    rw [stepPda_noTrans_err pda sym es hft hes]
    exact ⟨rfl, rfl⟩
  · intro hes
    rw [stepPda_noTrans_noErr pda sym hft hes]
    exact ⟨rfl, rfl⟩

theorem c9Witness :
    (pdaC9.stepPda "a").2 = (false, some (Msg.noValidTransition "a" "q_error")) := by
  have h := c9NoTransitionMessage pdaC9 "a" (by decide)
  exact (h.1 ⟨"q_error", StateType.ERROR⟩ (by decide)).1

/-! ### C3: `process` semantics -/

theorem runLoop_done (m : Pda) : m.runLoop [] = (m, true, none) := rfl

theorem runLoop_cons_ok (m m' : Pda) (s : String) (rest : List String) (o : Option Msg)
    (h : m.stepPda s = (m', true, o)) :
    m.runLoop (s :: rest) = m'.runLoop rest := by
  conv_lhs => rw [Pda.runLoop]
  rw [h]

theorem runLoop_cons_fail (m m' : Pda) (s : String) (rest : List String) (e : Option Msg)
    (h : m.stepPda s = (m', false, e)) :
    m.runLoop (s :: rest) = (m', false, e) := by
  unfold Pda.runLoop
  rw [h]

theorem runLoop_true_none (syms : List String) (m mz : Pda) (o : Option Msg)
    (h : m.runLoop syms = (mz, true, o)) : o = none := by
  induction syms generalizing m with
  | nil =>
    exact (congrArg (fun p => p.2.2) h).symm
  | cons a as ih =>
    rcases hs : m.stepPda a with ⟨ma, ok, o'⟩
    cases ok
    · rw [runLoop_cons_fail m ma a as o' hs] at h
      simp at h
    · rw [runLoop_cons_ok m ma a as o' hs] at h
      exact ih ma h

theorem runLoop_append_fail (m m1 mf : Pda) (xs : List String) (s : String)
    (ys : List String) (e : Option Msg)
    (h1 : m.runLoop xs = (m1, true, none)) (h2 : m1.stepPda s = (mf, false, e)) :
    m.runLoop (xs ++ s :: ys) = (mf, false, e) := by
  induction xs generalizing m with
  | nil =>
    have hm : m = m1 := congrArg Prod.fst h1
    rw [List.nil_append]
    rw [hm]
    exact runLoop_cons_fail m1 mf s ys e h2
  | cons a as ih =>
    rcases hs : m.stepPda a with ⟨ma, ok, o'⟩
    cases ok
    · rw [runLoop_cons_fail m ma a as o' hs] at h1
      simp at h1
    · rw [runLoop_cons_ok m ma a as o' hs] at h1
      rw [List.cons_append, runLoop_cons_ok m ma a (as ++ s :: ys) o' hs]
      exact ih ma h1

/-- C3: `process` resets, steps through the symbols in order, returns failure
with the first failing step's message (the symbols after it are not processed:
the result does not depend on `ys`), and otherwise classifies acceptance
solely by the kind of the state reached after the last symbol — Accepting
accepts, Error rejects with the error-state message, any other kind rejects
as non-accepting, and acceptance can only arise from the final state's kind. -/
theorem c3ProcessClassification (pda : Pda) (syms xs ys : List String) (s : String)
    (m1 mf : Pda) (e : Option Msg) :
    (syms = xs ++ s :: ys → pda.resetPda.runLoop xs = (m1, true, none) →
      m1.stepPda s = (mf, false, e) →
      pda.processPda syms = (false, e, mf.execHistory))
    ∧ (pda.resetPda.runLoop syms = (m1, true, none) →
        m1.currentState.stateType = StateType.ACCEPTING →
        pda.processPda syms = (true, some Msg.inputAccepted, m1.execHistory))
    ∧ (pda.resetPda.runLoop syms = (m1, true, none) →
        m1.currentState.stateType = StateType.ERROR →
        pda.processPda syms = (false, some Msg.endedInErrorState, m1.execHistory))
    ∧ (pda.resetPda.runLoop syms = (m1, true, none) →
        m1.currentState.stateType ≠ StateType.ACCEPTING →
        m1.currentState.stateType ≠ StateType.ERROR →
        pda.processPda syms
          = (false, some (Msg.endedNonAccepting m1.currentState.name), m1.execHistory))
    ∧ ((pda.processPda syms).1 = true →
        ∃ mz, pda.resetPda.runLoop syms = (mz, true, none)
          ∧ mz.currentState.stateType = StateType.ACCEPTING) := by
  refine ⟨?_, ?_, ?_, ?_, ?_⟩
  · intro he h1 h2
    subst he
    have hrw := runLoop_append_fail pda.resetPda m1 mf xs s ys e h1 h2
    simp only [Pda.processPda, hrw]
  · intro h1 h2
    simp only [Pda.processPda, h1, h2]
  · intro h1 h2
    simp only [Pda.processPda, h1, h2]
  · intro h1 h2 h3
    cases hk : m1.currentState.stateType with
    | INITIAL => simp only [Pda.processPda, h1, hk]
    | NORMAL => simp only [Pda.processPda, h1, hk]
    | ACCEPTING => exact absurd hk h2
    | ERROR => exact absurd hk h3
  · intro hacc
    rcases hrl : pda.resetPda.runLoop syms with ⟨mz, ok, o⟩
    cases ok
    · simp only [Pda.processPda, hrl] at hacc
      exact absurd hacc (by decide)
    · have ho : o = none := runLoop_true_none syms pda.resetPda mz o hrl
      subst ho
      cases hk : mz.currentState.stateType with
      | ACCEPTING => exact ⟨mz, rfl, hk⟩
      | INITIAL =>
        simp only [Pda.processPda, hrl, hk] at hacc
        exact absurd hacc (by decide)
      | NORMAL =>
        simp only [Pda.processPda, hrl, hk] at hacc
        exact absurd hacc (by decide)
      | ERROR =>
        simp only [Pda.processPda, hrl, hk] at hacc
        exact absurd hacc (by decide)

def pdaC3a : Pda := Pda.mkEmpty.addState ("q0") StateType.INITIAL

def pdaC3b : Pda :=
  ((Pda.mkEmpty.addState ("q0") StateType.INITIAL).addState
      ("q1") StateType.ACCEPTING).addTransition
    ("q0") ("q1") (some "x") none ("none")

theorem c3Witness :
    pdaC3a.processPda ["a", "b"] = (false, some (Msg.noValidTransition "a" "q0"),
      (pdaC3a.resetPda.stepPda "a").1.execHistory)
    ∧ pdaC3b.processPda ["x"]
      = (true, some Msg.inputAccepted, (pdaC3b.resetPda.runLoop ["x"]).1.execHistory) := by
  constructor
  · exact (c3ProcessClassification pdaC3a ["a", "b"] [] ["b"] "a" pdaC3a.resetPda
      (pdaC3a.resetPda.stepPda "a").1 (some (Msg.noValidTransition "a" "q0"))).1
      rfl rfl (by decide)
  · exact (c3ProcessClassification pdaC3b ["x"] [] [] "x"
      (pdaC3b.resetPda.runLoop ["x"]).1 pdaC3b none).2.1 (by decide) (by decide)

/-! ### `expression_validator.py`: tokenizer -/

/-- Membership in `ExpressionTokenizer.OPERATORS` for a character. -/
def isOpChar (c : Char) : Bool := c == '+' || c == '-' || c == '*' || c == '/'

/-- Membership in `ExpressionTokenizer.OPERATORS` for a token. -/
def isOperatorTok (t : List Char) : Bool := t == ['+'] || t == ['-'] || t == ['*'] || t == ['/']

/-- Python `token.isdigit()` (ASCII digits; the repository only feeds ASCII). -/
def isDigitsTok (t : List Char) : Bool := !t.isEmpty && t.all Char.isDigit

/-- Python `char.isspace()` restricted to ASCII, which it matches exactly. -/
def isSpaceChar (c : Char) : Bool :=
  c == ' ' || c == '\t' || c == '\n' || c == '\r' || c == '\x0b' || c == '\x0c'

/-- The `INVALID:` marker prepended to unrecognized tokens. -/
def invMark : List Char := ("INVALID:").data

/-- `ExpressionTokenizer.tokenize_infix`: the character loop with the pending
digit-run accumulator `cur` (Python's `current_number`) and tokens `acc`. -/
def tokenizeInfixAux : List Char → List Char → List (List Char) → List (List Char)
  | [], cur, acc => if cur ≠ [] then acc ++ [cur] else acc
  | c :: rest, cur, acc =>
    if c.isDigit then tokenizeInfixAux rest (cur ++ [c]) acc
    else
      let acc1 := if cur ≠ [] then acc ++ [cur] else acc
      if isOpChar c then tokenizeInfixAux rest [] (acc1 ++ [[c]])
      else if c == '(' || c == ')' then tokenizeInfixAux rest [] (acc1 ++ [[c]])
      else if isSpaceChar c then tokenizeInfixAux rest [] acc1
      else tokenizeInfixAux rest [] (acc1 ++ [invMark ++ [c]])

def tokenizeInfixL (expr : List Char) : List (List Char) := tokenizeInfixAux expr [] []

/-- Python `str.split()` (split on whitespace runs, no empty tokens). -/
def splitWsAux : List Char → List Char → List (List Char) → List (List Char)
  | [], cur, acc => if cur ≠ [] then acc ++ [cur] else acc
  | c :: rest, cur, acc =>
    if isSpaceChar c then splitWsAux rest [] (if cur ≠ [] then acc ++ [cur] else acc)
    else splitWsAux rest (cur ++ [c]) acc

/-- `ExpressionTokenizer.tokenize_postfix` (also used by `tokenize_prefix`). -/
def tokenizePostfixL (expr : List Char) : List (List Char) :=
  (splitWsAux expr [] []).map (fun t =>
    if isOperatorTok t then t
    else if isDigitsTok t then t
    else invMark ++ t)

/-- `ExpressionTokenizer.classify_token`. -/
def classifyTokenS (t : List Char) : String :=
  if invMark.isPrefixOf t then "INVALID"
  else if isOperatorTok t then "OPERATOR"
  else if t = ['('] then "LPAREN"
  else if t = [')'] then "RPAREN"
  else if isDigitsTok t then "OPERAND"
  else "INVALID"

/-! ### `expression_validator.py`: validators -/

/-- `ValidationResult` (the presentation-only `execution_trace` list of
formatted strings is omitted). -/
structure ValidationResult where
  isValid : Bool
  nt : Nt
  message : Msg
  finalState : String
deriving DecidableEq

/-- `InfixValidator._build_pda`. -/
def infixPdaInit : Pda :=
  let m1 := Pda.mkEmpty.addState ("q_start") StateType.INITIAL
  let m2 := m1.addState ("q_expect_operand") StateType.NORMAL
  let m3 := m2.addState ("q_expect_operator") StateType.NORMAL
  let m4 := m3.addState ("q_accept") StateType.ACCEPTING
  let m5 := m4.addState ("q_error") StateType.ERROR
  let m6 := m5.addTransition ("q_start") ("q_expect_operator") (some "OPERAND") none ("none")
  let m7 := m6.addTransition ("q_start") ("q_expect_operand") (some "LPAREN") none ("push:(")
  let m8 := m7.addTransition ("q_expect_operand") ("q_expect_operator") (some "OPERAND") none ("none")
  let m9 := m8.addTransition ("q_expect_operand") ("q_expect_operand") (some "LPAREN") none ("push:(")
  let m10 := m9.addTransition ("q_expect_operator") ("q_expect_operand") (some "OPERATOR") none ("none")
  m10.addTransition ("q_expect_operator") ("q_expect_operator") (some "RPAREN") (some "(") ("pop")

/-- The final-state check at the end of `InfixValidator.validate`. -/
def infixFinalCheck (m : Pda) : ValidationResult :=
  let finalState := m.currentState.name
  let stackEmpty := m.stack.isEmptyS
  if finalState = "q_expect_operator" ∧ stackEmpty = true then
    ⟨true, Nt.ntIn, Msg.validExpression Nt.ntIn, finalState⟩
  else if stackEmpty = false then
    ⟨false, Nt.ntIn, Msg.unmatchedOpenParen, finalState⟩
  else
    ⟨false, Nt.ntIn, Msg.expressionIncomplete finalState, finalState⟩

/-- The token loop of `InfixValidator.validate`.  On a failing step the
source copies the step's message into the result; `stepPda` always supplies
one on failure, so the `getD` default is unreachable. -/
def infixLoop : Pda → List (List Char) → ValidationResult
  | m, [] => infixFinalCheck m
  | m, tok :: rest =>
    let tokenType := classifyTokenS tok
    if tokenType = "INVALID" then
      ⟨false, Nt.ntIn, Msg.invalidToken tok, "q_error"⟩
    else
      match m.stepPda tokenType with
      | (m', true, _) => infixLoop m' rest
      | (m', false, e) => ⟨false, Nt.ntIn, e.getD Msg.emptyExpression, m'.currentState.name⟩

/-- `InfixValidator.validate`. -/
def infixValidateL (expr : List Char) : ValidationResult :=
  let m := infixPdaInit.resetPda
  let tokens := tokenizeInfixL expr
  if tokens = [] then ⟨false, Nt.ntIn, Msg.emptyExpression, "q_error"⟩
  else infixLoop m tokens

/-- The token loop of `PostfixValidator.validate`: the live operand counter
plus the marker stack (`self.pda.stack`) kept only for trace purposes. -/
def postfixLoop : Nat → PdaStack → List (List Char) → ValidationResult
  | operandCount, _, [] =>
    if operandCount = 1 then ⟨true, Nt.ntPost, Msg.validExpression Nt.ntPost, "q_accept"⟩
    else if 1 < operandCount then
      ⟨false, Nt.ntPost, Msg.tooManyOperands operandCount, "q_error"⟩
    else ⟨false, Nt.ntPost, Msg.noResultIncomplete, "q_error"⟩
  | operandCount, stack, tok :: rest =>
    let tokenType := classifyTokenS tok
    if tokenType = "INVALID" then ⟨false, Nt.ntPost, Msg.invalidToken tok, "q_error"⟩
    else if tokenType = "LPAREN" ∨ tokenType = "RPAREN" then
      ⟨false, Nt.ntPost, Msg.parensNotAllowed Nt.ntPost, "q_error"⟩
    else if tokenType = "OPERAND" then
      postfixLoop (operandCount + 1) (stack.pushS "X") rest
    else
      if operandCount < 2 then ⟨false, Nt.ntPost, Msg.notEnoughOperands tok, "q_error"⟩
      else postfixLoop (operandCount - 1) stack.popS.2 rest

/-- `PostfixValidator.validate` on an already-tokenized input. -/
def postfixCoreOnTokens (tokens : List (List Char)) : ValidationResult :=
  if tokens = [] then ⟨false, Nt.ntPost, Msg.emptyExpression, "q_error"⟩
  else postfixLoop 0 (PdaStack.fresh ("Z0")) tokens

/-- `PostfixValidator.validate` (`self.pda.reset()` leaves the marker stack
at sentinel-only `["Z0"]`; the postfix PDA's state table is built but the
validator reads only the stack and literal state names). -/
def postfixValidateL (expr : List Char) : ValidationResult :=
  postfixCoreOnTokens (tokenizePostfixL expr)

/-- The token loop of `PrefixValidator.validate`, written out from its own
source lines; it differs from `postfixLoop` only in the notation tags of the
messages (and in presentation-only trace markers, omitted). -/
def prefixLoop : Nat → PdaStack → List (List Char) → ValidationResult
  | operandCount, _, [] =>
    if operandCount = 1 then ⟨true, Nt.ntPre, Msg.validExpression Nt.ntPre, "q_accept"⟩
    else if 1 < operandCount then
      ⟨false, Nt.ntPre, Msg.tooManyOperands operandCount, "q_error"⟩
    else ⟨false, Nt.ntPre, Msg.noResultIncomplete, "q_error"⟩
  | operandCount, stack, tok :: rest =>
    let tokenType := classifyTokenS tok
    if tokenType = "INVALID" then ⟨false, Nt.ntPre, Msg.invalidToken tok, "q_error"⟩
    else if tokenType = "LPAREN" ∨ tokenType = "RPAREN" then
      ⟨false, Nt.ntPre, Msg.parensNotAllowed Nt.ntPre, "q_error"⟩
    else if tokenType = "OPERAND" then
      prefixLoop (operandCount + 1) (stack.pushS "X") rest
    else
      if operandCount < 2 then ⟨false, Nt.ntPre, Msg.notEnoughOperands tok, "q_error"⟩
      else prefixLoop (operandCount - 1) stack.popS.2 rest

/-- `PrefixValidator.validate`: same tokenization as postfix, then the loop
over the reversed token list. -/
def prefixValidateL (expr : List Char) : ValidationResult :=
  let tokens := tokenizePostfixL expr
  if tokens = [] then ⟨false, Nt.ntPre, Msg.emptyExpression, "q_error"⟩
  else prefixLoop 0 (PdaStack.fresh ("Z0")) tokens.reverse

/-! ### C4: infix acceptance condition -/

/-- Stepping the infix PDA through a classified token list, `none` on the
first failing step (the run that `InfixValidator.validate` performs). -/
def infixStepsThrough : Pda → List (List Char) → Option Pda
  | m, [] => some m
  | m, tok :: rest =>
    match m.stepPda (classifyTokenS tok) with
    | (m', true, _) => infixStepsThrough m' rest
    | (_, false, _) => none

theorem infixLoop_run (toks : List (List Char)) (m : Pda)
    (hno : ∀ t ∈ toks, classifyTokenS t ≠ "INVALID") :
    (∀ mf, infixStepsThrough m toks = some mf → infixLoop m toks = infixFinalCheck mf)
    ∧ (infixStepsThrough m toks = none → (infixLoop m toks).isValid = false) := by
  induction toks generalizing m with
  | nil =>
    constructor
    · intro mf h
      have hm : m = mf := Option.some.inj h
      rw [← hm]
      rfl
    · intro h
      exact absurd h (by simp [infixStepsThrough])
  | cons tok rest ih =>
    have hcl : classifyTokenS tok ≠ "INVALID" := hno tok (by simp)
    have htail : ∀ t ∈ rest, classifyTokenS t ≠ "INVALID" := fun t ht => hno t (by simp [ht])
    rcases hs : m.stepPda (classifyTokenS tok) with ⟨m', ok, e⟩
    cases ok
    · constructor
      · intro mf h
        simp only [infixStepsThrough, hs] at h
        exact Option.noConfusion h
      · intro _
        simp only [infixLoop]
        rw [if_neg hcl, hs]
    · constructor
      · intro mf h
        simp only [infixStepsThrough, hs] at h
        simp only [infixLoop]
        rw [if_neg hcl, hs]
        exact (ih m' htail).1 mf h
      · intro h
        simp only [infixStepsThrough, hs] at h
        simp only [infixLoop]
        rw [if_neg hcl, hs]
        exact (ih m' htail).2 h

/-- C4: for inputs with no invalid tokens, the infix validator accepts exactly
when stepping through the tokens succeeds and ends in `q_expect_operator`
with the parenthesis stack empty; completing all tokens with a non-empty
stack yields the specific "unmatched opening parenthesis" message, which is
distinct from the generic non-acceptance message. -/
theorem c4InfixAcceptance (expr : List Char)
    (hno : ∀ t ∈ tokenizeInfixL expr, classifyTokenS t ≠ "INVALID") :
    ((infixValidateL expr).isValid = true ↔
      ∃ mf, infixStepsThrough infixPdaInit.resetPda (tokenizeInfixL expr) = some mf
        ∧ mf.currentState.name = "q_expect_operator" ∧ mf.stack.isEmptyS = true)
    ∧ (∀ mf, infixStepsThrough infixPdaInit.resetPda (tokenizeInfixL expr) = some mf →
        mf.stack.isEmptyS = false →
        (infixValidateL expr).isValid = false
        ∧ (infixValidateL expr).message = Msg.unmatchedOpenParen)
    ∧ (∀ st, Msg.unmatchedOpenParen ≠ Msg.expressionIncomplete st) := by
  by_cases he : tokenizeInfixL expr = []
  · have hval : infixValidateL expr = ⟨false, Nt.ntIn, Msg.emptyExpression, "q_error"⟩ := by
      unfold infixValidateL
      rw [he]
      rfl
    refine ⟨?_, ?_, fun st h => Msg.noConfusion h⟩
    · rw [hval, he]
      constructor
      · intro h
        exact absurd h (by decide)
      · rintro ⟨mf, hmf, hname, -⟩
        have : mf = infixPdaInit.resetPda := (Option.some.inj hmf).symm
        rw [this] at hname
        exact absurd hname (by decide)
    · intro mf hmf hemp
      rw [he] at hmf
      have : mf = infixPdaInit.resetPda := (Option.some.inj hmf).symm
      rw [this] at hemp
      exact absurd hemp (by decide)
  · have hval : infixValidateL expr = infixLoop infixPdaInit.resetPda (tokenizeInfixL expr) := by
      unfold infixValidateL
      rw [if_neg he]
    obtain ⟨hrun, hfail⟩ := infixLoop_run (tokenizeInfixL expr) infixPdaInit.resetPda hno
    refine ⟨?_, ?_, fun st h => Msg.noConfusion h⟩
    · constructor
      · intro h
        rcases hst : infixStepsThrough infixPdaInit.resetPda (tokenizeInfixL expr) with _ | mf
        · rw [hval, hfail hst] at h
          exact absurd h (by decide)
        · refine ⟨mf, rfl, ?_⟩
          rw [hval, hrun mf hst] at h
          unfold infixFinalCheck at h
          by_cases hc : mf.currentState.name = "q_expect_operator" ∧ mf.stack.isEmptyS = true
          · exact hc
          · rw [if_neg hc] at h
            by_cases hc2 : mf.stack.isEmptyS = false
            · rw [if_pos hc2] at h
              simp at h
            · rw [if_neg hc2] at h
              simp at h
      · rintro ⟨mf, hmf, hname, hemp⟩
        rw [hval, hrun mf hmf]
        unfold infixFinalCheck
        rw [if_pos ⟨hname, hemp⟩]
    · intro mf hmf hemp
      rw [hval, hrun mf hmf]
      unfold infixFinalCheck
      have hc : ¬ (mf.currentState.name = "q_expect_operator" ∧ mf.stack.isEmptyS = true) := by
        rintro ⟨-, h⟩
        rw [hemp] at h
        exact absurd h (by decide)
      rw [if_neg hc, if_pos hemp]
      exact ⟨rfl, rfl⟩

theorem c4Witness :
    (infixValidateL (("(3+4").data)).isValid = false
    ∧ (infixValidateL (("(3+4").data)).message = Msg.unmatchedOpenParen := by
  have h := c4InfixAcceptance (("(3+4").data) (by decide)
  exact h.2.1
    ((infixStepsThrough infixPdaInit.resetPda (tokenizeInfixL (("(3+4").data))).getD Pda.mkEmpty)
    (by decide) (by decide)

/-! ### C5: postfix operand-counting discipline -/

/-- Outcome of the claim-side operand counter. -/
inductive CountOutcome where
  | done (n : Nat)
  | failedAt (tok : List Char)
deriving DecidableEq

/-- Claim-side counting discipline, written from the specification's words:
each operand increments the counter, each operator requires it to be at least
2 and decrements it by one, anything else fails at that token. -/
def counterDiscipline : Nat → List (List Char) → CountOutcome
  | n, [] => CountOutcome.done n
  | n, tok :: rest =>
    if classifyTokenS tok = "OPERAND" then counterDiscipline (n + 1) rest
    else if 2 ≤ n then counterDiscipline (n - 1) rest
    else CountOutcome.failedAt tok

theorem postfixLoop_counter (toks : List (List Char)) (n : Nat) (st : PdaStack)
    (hcls : ∀ t ∈ toks, classifyTokenS t = "OPERAND" ∨ classifyTokenS t = "OPERATOR") :
    (∀ tok, counterDiscipline n toks = CountOutcome.failedAt tok →
      postfixLoop n st toks = ⟨false, Nt.ntPost, Msg.notEnoughOperands tok, "q_error"⟩)
    ∧ (∀ k, counterDiscipline n toks = CountOutcome.done k →
      postfixLoop n st toks =
        if k = 1 then ⟨true, Nt.ntPost, Msg.validExpression Nt.ntPost, "q_accept"⟩
        else if 1 < k then ⟨false, Nt.ntPost, Msg.tooManyOperands k, "q_error"⟩
        else ⟨false, Nt.ntPost, Msg.noResultIncomplete, "q_error"⟩) := by
  induction toks generalizing n st with
  | nil =>
    constructor
    · intro tok h
      exact absurd h (by simp [counterDiscipline])
    · intro k h
      have hk : n = k := CountOutcome.done.inj h
      subst hk
      rfl
  | cons tok rest ih =>
    have htail : ∀ t ∈ rest, classifyTokenS t = "OPERAND" ∨ classifyTokenS t = "OPERATOR" :=
      fun t ht => hcls t (by simp [ht])
    rcases hcls tok (by simp) with hcl | hcl
    · have h1 := (ih (n + 1) (st.pushS "X") htail).1
      have h2 := (ih (n + 1) (st.pushS "X") htail).2
      constructor
      · intro t h
        simp [counterDiscipline, hcl] at h
        simp [postfixLoop, hcl]
        exact h1 t h
      · intro k h
        simp [counterDiscipline, hcl] at h
        simp [postfixLoop, hcl]
        exact h2 k h
    · by_cases hn : 2 ≤ n
      · have h1 := (ih (n - 1) st.popS.2 htail).1
        have h2 := (ih (n - 1) st.popS.2 htail).2
        constructor
        · intro t h
          simp [counterDiscipline, hcl] at h
          rw [if_pos hn] at h
          simp [postfixLoop, hcl]
          rw [if_neg (by omega)]
          exact h1 t h
        · intro k h
          simp [counterDiscipline, hcl] at h
          rw [if_pos hn] at h
          simp [postfixLoop, hcl]
          rw [if_neg (by omega)]
          exact h2 k h
      · constructor
        · intro t h
          simp [counterDiscipline, hcl] at h
          rw [if_neg hn] at h
          have ht : t = tok := (CountOutcome.failedAt.inj h).symm
          subst ht
          simp [postfixLoop, hcl]
          intro hge
          exact absurd hge hn
        · intro k h
          simp [counterDiscipline, hcl] at h
          rw [if_neg hn] at h
          exact absurd h (by simp)

/-- C5 counterexample: for the empty input the token sequence is empty (so
vacuously all tokens are operands/operators) and the counter ends at 0, yet
the validator's message is "Empty expression", not the incomplete-expression
message the claim requires for a final counter of 0. -/
theorem c5Counterexample :
    tokenizePostfixL [] = []
    ∧ counterDiscipline 0 (tokenizePostfixL []) = CountOutcome.done 0
    ∧ (postfixValidateL []).message = Msg.emptyExpression
    ∧ Msg.emptyExpression ≠ Msg.noResultIncomplete
    ∧ (postfixValidateL []).isValid = false := by
  decide

/-- C5 amended to inputs with at least one token: the validator follows the
operand-counting discipline — an operator finding the counter below 2 fails
with the not-enough-operands message; otherwise the result is valid exactly
when the final counter is 1, a counter above 1 gives the too-many-operands
message, and a counter of 0 gives the incomplete-expression message. -/
theorem c5PostfixCounterDiscipline (expr : List Char)
    (hne : tokenizePostfixL expr ≠ [])
    (hcls : ∀ t ∈ tokenizePostfixL expr,
      classifyTokenS t = "OPERAND" ∨ classifyTokenS t = "OPERATOR") :
    (∀ tok, counterDiscipline 0 (tokenizePostfixL expr) = CountOutcome.failedAt tok →
      (postfixValidateL expr).isValid = false
      ∧ (postfixValidateL expr).message = Msg.notEnoughOperands tok)
    ∧ (∀ n, counterDiscipline 0 (tokenizePostfixL expr) = CountOutcome.done n →
      ((postfixValidateL expr).isValid = true ↔ n = 1)
      ∧ (n = 1 → (postfixValidateL expr).message = Msg.validExpression Nt.ntPost)
      ∧ (1 < n → (postfixValidateL expr).isValid = false
          ∧ (postfixValidateL expr).message = Msg.tooManyOperands n)
      ∧ (n = 0 → (postfixValidateL expr).isValid = false
          ∧ (postfixValidateL expr).message = Msg.noResultIncomplete)) := by
  have hval : postfixValidateL expr
      = postfixLoop 0 (PdaStack.fresh ("Z0")) (tokenizePostfixL expr) := by
    unfold postfixValidateL postfixCoreOnTokens
    rw [if_neg hne]
  obtain ⟨hfail, hdone⟩ :=
    postfixLoop_counter (tokenizePostfixL expr) 0 (PdaStack.fresh ("Z0")) hcls
  constructor
  · intro tok h
    rw [hval, hfail tok h]
    exact ⟨rfl, rfl⟩
  · intro n h
    rw [hval, hdone n h]
    by_cases h1 : n = 1
    · subst h1
      refine ⟨by simp, fun _ => by simp, fun hlt => absurd hlt (by omega), fun h0 => absurd h0 (by omega)⟩
    · by_cases h2 : 1 < n
      · rw [if_neg h1, if_pos h2]
        exact ⟨by simp [h1], fun he => absurd he h1, fun _ => ⟨rfl, rfl⟩,
               fun h0 => absurd h0 (by omega)⟩
      · rw [if_neg h1, if_neg h2]
        exact ⟨by simp [h1], fun he => absurd he h1, fun hlt => absurd hlt h2,
               fun _ => ⟨rfl, rfl⟩⟩

theorem c5Witness :
    (postfixValidateL (("3 4").data)).isValid = false
    ∧ (postfixValidateL (("3 4").data)).message = Msg.tooManyOperands 2 := by
  have h := c5PostfixCounterDiscipline (("3 4").data) (by decide) (by decide)
  exact (h.2 2 (by decide)).2.2.1 (by decide)

/-! ### C7: prefix validator as postfix discipline on the reversed tokens -/

/-- Relabels a postfix-discipline result as the prefix validator reports it:
the notation tag (also inside the two notation-carrying messages) becomes
prefix; everything else is unchanged. -/
def retagMsgToPre : Msg → Msg
  | Msg.validExpression _ => Msg.validExpression Nt.ntPre
  | Msg.parensNotAllowed _ => Msg.parensNotAllowed Nt.ntPre
  | m => m

def retagToPre (r : ValidationResult) : ValidationResult :=
  ⟨r.isValid, Nt.ntPre, retagMsgToPre r.message, r.finalState⟩

theorem prefixLoop_eq_retag (toks : List (List Char)) (n : Nat) (st : PdaStack) :
    prefixLoop n st toks = retagToPre (postfixLoop n st toks) := by
  induction toks generalizing n st with
  | nil =>
    simp only [prefixLoop, postfixLoop]
    by_cases h1 : n = 1
    · simp [h1, retagToPre, retagMsgToPre]
    · by_cases h2 : 1 < n <;> simp [h1, h2, retagToPre, retagMsgToPre]
  | cons tok rest ih =>
    simp only [prefixLoop, postfixLoop]
    by_cases hI : classifyTokenS tok = "INVALID"
    · simp [hI, retagToPre, retagMsgToPre]
    · by_cases hP : classifyTokenS tok = "LPAREN" ∨ classifyTokenS tok = "RPAREN"
      · simp [hI, hP, retagToPre, retagMsgToPre]
      · by_cases hO : classifyTokenS tok = "OPERAND"
        · simp [hI, hP, hO, ih]
        · by_cases hc : n < 2 <;>
            simp [hI, hP, hO, hc, ih, retagToPre, retagMsgToPre]

/-- C7: for every input expression, the prefix validator's result equals the
postfix validator's operand-counting discipline applied to the reversed token
sequence (same tokenization), up to relabeling the notation tag from postfix
to prefix; in particular verdicts and error classifications coincide,
including the rejection of parenthesis tokens. -/
theorem c7PrefixIsReversedPostfix (expr : List Char) :
    prefixValidateL expr
      = retagToPre (postfixCoreOnTokens (tokenizePostfixL expr).reverse) := by
  unfold prefixValidateL postfixCoreOnTokens
  by_cases h : tokenizePostfixL expr = []
  · simp [h, retagToPre, retagMsgToPre]
  · have h2 : (tokenizePostfixL expr).reverse ≠ [] := by simpa using h
    rw [if_neg h, if_neg h2]
    exact prefixLoop_eq_retag _ 0 _

/-! ### `SoalDua/state_machine.py`: trie-based combo matcher

`StateNode` objects form a tree mutated in place during `build_from_combos`;
they are modelled as a pure `Trie` value (the presentation-only `state_id`
counter, used by the diagram export, is omitted).  The live `current_state`
pointer is modelled as the subtree rooted at the current node, which is
faithful because nodes are never mutated after building. -/

inductive Trie where
  | node (isAccept : Bool) (comboName : Option String) (children : List (String × Trie))

def Trie.isAcceptT : Trie → Bool
  | Trie.node a _ _ => a

def Trie.comboNameT : Trie → Option String
  | Trie.node _ n _ => n

def Trie.childrenT : Trie → List (String × Trie)
  | Trie.node _ _ c => c

/-- A freshly created `StateNode`. -/
def emptyTrie : Trie := Trie.node false none []

/-- `StateNode.get_next_state` / `has_transition`. -/
def childLookup (t : Trie) (sym : String) : Option Trie := alookup t.childrenT sym

/-- One combo insertion of `build_from_combos`: walk the sequence, creating a
fresh node where a transition is missing, and mark the terminal node as an
accept state carrying the combo name. -/
def insertSeq : Trie → List String → String → Trie
  | t, [], name => Trie.node true (some name) t.childrenT
  | t, s :: rest, name =>
    let child := match childLookup t s with
      | some c => c
      | none => emptyTrie
    Trie.node t.isAcceptT t.comboNameT (aupdate t.childrenT s (insertSeq child rest name))

/-- The combo loop of `build_from_combos`. -/
def buildTrie (combos : List (List String × String)) : Trie :=
  combos.foldl (fun t c => insertSeq t c.1 c.2) emptyTrie

/-- `ComboStateMachine` (diagram-only `state_id` data omitted). -/
structure ComboMachine where
  root : Trie
  cur : Trie
  history : List String
  comboList : List (List String × String)

/-- `__init__` followed by `build_from_combos(combos)` on a fresh machine. -/
def buildMachine (combos : List (List String × String)) : ComboMachine :=
  let t := buildTrie combos
  ⟨t, t, [], combos⟩

/-- `ComboStateMachine.reset`. -/
def ComboMachine.resetM (m : ComboMachine) : ComboMachine :=
  { m with cur := m.root, history := [] }

/-- `ComboStateMachine.process_input`. -/
def ComboMachine.processInput (m : ComboMachine) (sym : String) :
    ComboMachine × Option String :=
  match childLookup m.cur sym with
  | some nxt =>
      let m' := { m with history := m.history ++ [sym], cur := nxt }
      if nxt.isAcceptT then (m'.resetM, nxt.comboNameT) else (m', none)
  | none =>
    match childLookup m.root sym with
    | none => (m.resetM, none)
    | some nxt =>
      let m' := { m with history := [sym], cur := nxt }
      if nxt.isAcceptT then (m'.resetM, nxt.comboNameT) else (m', none)

/-- A sequence of `process_input` calls, collecting the returned labels. -/
def feedAll (m : ComboMachine) : List String → ComboMachine × List (Option String)
  | [] => (m, [])
  | s :: rest =>
    let r := m.processInput s
    let r2 := feedAll r.1 rest
    (r2.1, r.2 :: r2.2)

/-- One iteration of the maximal-length scan inside
`get_progress_percentage`: a longer sequence is considered only if the
consumed history is its prefix (the Python index loop). -/
def maxLenStep (history : List String) (mx : Nat) (c : List String × String) : Nat :=
  if c.1.length > mx then (if history.isPrefixOf c.1 then c.1.length else mx) else mx

/-- The maximal-length scan inside `get_progress_percentage`. -/
def computeMaxLen (comboList : List (List String × String)) (history : List String) : Nat :=
  comboList.foldl (maxLenStep history) 0

/-- `ComboStateMachine.get_progress_percentage` (the Python float ratio is
modelled exactly in `ℚ`). -/
def ComboMachine.getProgress (m : ComboMachine) : ℚ :=
  if m.history = [] then 0
  else
    let maxLength := computeMaxLen m.comboList m.history
    if maxLength = 0 then 0
    else (m.history.length : ℚ) / (maxLength : ℚ)

/-! ### Trie lookup lemmas -/

/-- The node reached by following a symbol path from `t`. -/
def nodeAt : Trie → List String → Option Trie
  | t, [] => some t
  | t, s :: rest =>
    match childLookup t s with
    | some c => nodeAt c rest
    | none => none

def accAt (t : Trie) (w : List String) : Bool :=
  match nodeAt t w with
  | some n => n.isAcceptT
  | none => false

def nameAt (t : Trie) (w : List String) : Option String :=
  match nodeAt t w with
  | some n => n.comboNameT
  | none => none

def existsAt (t : Trie) (w : List String) : Bool := (nodeAt t w).isSome

theorem alookup_aupdate_self {α : Type} (l : List (String × α)) (k : String) (v : α) :
    alookup (aupdate l k v) k = some v := by
  induction l with
  | nil => simp [aupdate, alookup]
  | cons p r ih =>
    by_cases h : p.1 = k
    · simp [aupdate, alookup, h]
    · simp [aupdate, alookup, h, ih]

theorem alookup_aupdate_ne {α : Type} (l : List (String × α)) (k k' : String) (v : α)
    (h : k ≠ k') :
    alookup (aupdate l k v) k' = alookup l k' := by
  induction l with
  | nil => simp [aupdate, alookup, h]
  | cons p r ih =>
    by_cases h2 : p.1 = k
    · simp [aupdate, alookup, h2, h]
    · simp [aupdate, alookup, h2, ih]

theorem nodeAt_nil (t : Trie) : nodeAt t [] = some t := by
  simp [nodeAt]

theorem nodeAt_child (t : Trie) (s : String) (w : List String) (c : Trie)
    (hc : childLookup t s = some c) : nodeAt t (s :: w) = nodeAt c w := by
  simp [nodeAt, hc]

theorem nodeAt_noChild (t : Trie) (s : String) (w : List String)
    (hc : childLookup t s = none) : nodeAt t (s :: w) = none := by
  simp [nodeAt, hc]

theorem accAt_nil (t : Trie) : accAt t [] = t.isAcceptT := by
  simp [accAt, nodeAt_nil]

theorem accAt_child (t : Trie) (s : String) (w : List String) (c : Trie)
    (hc : childLookup t s = some c) : accAt t (s :: w) = accAt c w := by
  unfold accAt
  rw [nodeAt_child t s w c hc]

theorem accAt_noChild (t : Trie) (s : String) (w : List String)
    (hc : childLookup t s = none) : accAt t (s :: w) = false := by
  unfold accAt
  rw [nodeAt_noChild t s w hc]

theorem nameAt_nil (t : Trie) : nameAt t [] = t.comboNameT := by
  simp [nameAt, nodeAt_nil]

theorem nameAt_child (t : Trie) (s : String) (w : List String) (c : Trie)
    (hc : childLookup t s = some c) : nameAt t (s :: w) = nameAt c w := by
  unfold nameAt
  rw [nodeAt_child t s w c hc]

theorem nameAt_noChild (t : Trie) (s : String) (w : List String)
    (hc : childLookup t s = none) : nameAt t (s :: w) = none := by
  unfold nameAt
  rw [nodeAt_noChild t s w hc]

theorem existsAt_nil (t : Trie) : existsAt t [] = true := by
  simp [existsAt, nodeAt_nil]

theorem existsAt_child (t : Trie) (s : String) (w : List String) (c : Trie)
    (hc : childLookup t s = some c) : existsAt t (s :: w) = existsAt c w := by
  unfold existsAt
  rw [nodeAt_child t s w c hc]

theorem existsAt_noChild (t : Trie) (s : String) (w : List String)
    (hc : childLookup t s = none) : existsAt t (s :: w) = false := by
  unfold existsAt
  rw [nodeAt_noChild t s w hc]
  rfl

theorem childLookup_empty (x : String) : childLookup emptyTrie x = none := by
  simp [childLookup, emptyTrie, Trie.childrenT, alookup]

theorem accAt_empty (w : List String) : accAt emptyTrie w = false := by
  cases w with
  | nil => simp [accAt_nil, emptyTrie, Trie.isAcceptT]
  | cons x wr => rw [accAt_noChild _ _ _ (childLookup_empty x)]

theorem nameAt_empty (w : List String) : nameAt emptyTrie w = none := by
  cases w with
  | nil => simp [nameAt_nil, emptyTrie, Trie.comboNameT]
  | cons x wr => rw [nameAt_noChild _ _ _ (childLookup_empty x)]

theorem existsAt_empty_cons (s : String) (w : List String) :
    existsAt emptyTrie (s :: w) = false := by
  unfold existsAt
  rw [nodeAt_noChild _ _ _ (childLookup_empty s)]
  rfl

theorem insert_cons_eq (t : Trie) (s : String) (sr : List String) (name : String)
    (child : Trie)
    (hch : (match childLookup t s with
            | some c => c
            | none => emptyTrie) = child) :
    insertSeq t (s :: sr) name
      = Trie.node t.isAcceptT t.comboNameT
          (aupdate t.childrenT s (insertSeq child sr name)) := by
  simp [insertSeq, hch]

theorem insert_childLookup_hit (t : Trie) (s : String) (sr : List String)
    (name : String) (c : Trie) (hcx : childLookup t s = some c) :
    childLookup (insertSeq t (s :: sr) name) s = some (insertSeq c sr name) := by
  rw [insert_cons_eq t s sr name c (by rw [hcx])]
  show alookup (aupdate t.childrenT s (insertSeq c sr name)) s = _
  rw [alookup_aupdate_self]

theorem insert_childLookup_miss (t : Trie) (s : String) (sr : List String)
    (name : String) (hcx : childLookup t s = none) :
    childLookup (insertSeq t (s :: sr) name) s = some (insertSeq emptyTrie sr name) := by
  rw [insert_cons_eq t s sr name emptyTrie (by rw [hcx])]
  show alookup (aupdate t.childrenT s (insertSeq emptyTrie sr name)) s = _
  rw [alookup_aupdate_self]

theorem insert_childLookup_other (t : Trie) (s x : String) (sr : List String)
    (name : String) (hx : x ≠ s) :
    childLookup (insertSeq t (s :: sr) name) x = childLookup t x := by
  cases hcx : childLookup t s with
  | some c =>
    rw [insert_cons_eq t s sr name c (by rw [hcx])]
    show alookup (aupdate t.childrenT s (insertSeq c sr name)) x = _
    rw [alookup_aupdate_ne _ s x _ (fun h => hx h.symm)]
    rfl
  | none =>
    rw [insert_cons_eq t s sr name emptyTrie (by rw [hcx])]
    show alookup (aupdate t.childrenT s (insertSeq emptyTrie sr name)) x = _
    rw [alookup_aupdate_ne _ s x _ (fun h => hx h.symm)]
    rfl

theorem insert_nil_childLookup (t : Trie) (name x : String) :
    childLookup (insertSeq t [] name) x = childLookup t x := rfl

theorem accAt_insert (seq : List String) (t : Trie) (name : String) (w : List String) :
    accAt (insertSeq t seq name) w = if w = seq then true else accAt t w := by
  induction seq generalizing t w with
  | nil =>
    cases w with
    | nil => simp [insertSeq, accAt_nil, Trie.isAcceptT]
    | cons x wr =>
      rw [if_neg (by simp)]
      cases hcx : childLookup t x with
      | some c =>
        rw [accAt_child _ _ _ _ ((insert_nil_childLookup t name x).trans hcx),
            accAt_child _ _ _ _ hcx]
      | none =>
        rw [accAt_noChild _ _ _ ((insert_nil_childLookup t name x).trans hcx),
            accAt_noChild _ _ _ hcx]
  | cons s sr ih =>
    cases w with
    | nil =>
      rw [if_neg (by simp)]
      simp [insertSeq, accAt_nil, Trie.isAcceptT]
    | cons x wr =>
      by_cases hx : x = s
      · subst hx
        cases hcx : childLookup t x with
        | some c =>
          rw [accAt_child _ _ _ _ (insert_childLookup_hit t x sr name c hcx), ih]
          by_cases hw : wr = sr
          · simp [hw]
          · rw [if_neg hw, if_neg (by simp [hw]), accAt_child _ _ _ _ hcx]
        | none =>
          rw [accAt_child _ _ _ _ (insert_childLookup_miss t x sr name hcx), ih]
          by_cases hw : wr = sr
          · simp [hw]
          · rw [if_neg hw, if_neg (by simp [hw]), accAt_noChild _ _ _ hcx, accAt_empty]
      · rw [if_neg (by simp [hx])]
        have hlk := insert_childLookup_other t s x sr name hx
        cases hcx : childLookup t x with
        | some c =>
          rw [accAt_child _ _ _ _ (hlk.trans hcx), accAt_child _ _ _ _ hcx]
        | none =>
          rw [accAt_noChild _ _ _ (hlk.trans hcx), accAt_noChild _ _ _ hcx]

theorem nameAt_insert (seq : List String) (t : Trie) (name : String) (w : List String) :
    nameAt (insertSeq t seq name) w = if w = seq then some name else nameAt t w := by
  induction seq generalizing t w with
  | nil =>
    cases w with
    | nil => simp [insertSeq, nameAt_nil, Trie.comboNameT]
    | cons x wr =>
      rw [if_neg (by simp)]
      cases hcx : childLookup t x with
      | some c =>
        rw [nameAt_child _ _ _ _ ((insert_nil_childLookup t name x).trans hcx),
            nameAt_child _ _ _ _ hcx]
      | none =>
        rw [nameAt_noChild _ _ _ ((insert_nil_childLookup t name x).trans hcx),
            nameAt_noChild _ _ _ hcx]
  | cons s sr ih =>
    cases w with
    | nil =>
      rw [if_neg (by simp)]
      simp [insertSeq, nameAt_nil, Trie.comboNameT]
    | cons x wr =>
      by_cases hx : x = s
      · subst hx
        cases hcx : childLookup t x with
        | some c =>
          rw [nameAt_child _ _ _ _ (insert_childLookup_hit t x sr name c hcx), ih]
          by_cases hw : wr = sr
          · simp [hw]
          · rw [if_neg hw, if_neg (by simp [hw]), nameAt_child _ _ _ _ hcx]
        | none =>
          rw [nameAt_child _ _ _ _ (insert_childLookup_miss t x sr name hcx), ih]
          by_cases hw : wr = sr
          · simp [hw]
          · rw [if_neg hw, if_neg (by simp [hw]), nameAt_noChild _ _ _ hcx, nameAt_empty]
      · rw [if_neg (by simp [hx])]
        have hlk := insert_childLookup_other t s x sr name hx
        cases hcx : childLookup t x with
        | some c =>
          rw [nameAt_child _ _ _ _ (hlk.trans hcx), nameAt_child _ _ _ _ hcx]
        | none =>
          rw [nameAt_noChild _ _ _ (hlk.trans hcx), nameAt_noChild _ _ _ hcx]

theorem existsAt_insert (seq : List String) (t : Trie) (name : String) (w : List String) :
    existsAt (insertSeq t seq name) w = (existsAt t w || w.isPrefixOf seq) := by
  induction seq generalizing t w with
  | nil =>
    cases w with
    | nil => simp [existsAt_nil, List.isPrefixOf]
    | cons x wr =>
      rw [show (x :: wr).isPrefixOf ([] : List String) = false from rfl]
      cases hcx : childLookup t x with
      | some c =>
        rw [existsAt_child _ _ _ _ ((insert_nil_childLookup t name x).trans hcx),
            existsAt_child _ _ _ _ hcx]
        simp
      | none =>
        rw [existsAt_noChild _ _ _ ((insert_nil_childLookup t name x).trans hcx),
            existsAt_noChild _ _ _ hcx]
        simp
  | cons s sr ih =>
    cases w with
    | nil => simp [existsAt_nil, List.isPrefixOf]
    | cons x wr =>
      by_cases hx : x = s
      · subst hx
        have hpre : (x :: wr).isPrefixOf (x :: sr) = wr.isPrefixOf sr := by
          simp [List.isPrefixOf]
        rw [hpre]
        cases hcx : childLookup t x with
        | some c =>
          rw [existsAt_child _ _ _ _ (insert_childLookup_hit t x sr name c hcx), ih,
              existsAt_child _ _ _ _ hcx]
        | none =>
          rw [existsAt_child _ _ _ _ (insert_childLookup_miss t x sr name hcx), ih,
              existsAt_noChild _ _ _ hcx]
          cases wr with
          | nil => simp [existsAt_nil, List.isPrefixOf]
          | cons y yr => simp [existsAt_empty_cons]
      · have hpre : (x :: wr).isPrefixOf (s :: sr) = false := by
          simp [List.isPrefixOf, hx]
        rw [hpre]
        have hlk := insert_childLookup_other t s x sr name hx
        cases hcx : childLookup t x with
        | some c =>
          rw [existsAt_child _ _ _ _ (hlk.trans hcx), existsAt_child _ _ _ _ hcx]
          simp
        | none =>
          rw [existsAt_noChild _ _ _ (hlk.trans hcx), existsAt_noChild _ _ _ hcx]
          simp

/-! ### Build lemmas over the combo list -/

theorem accAt_buildFold (combos : List (List String × String)) (t : Trie) (w : List String) :
    accAt (combos.foldl (fun t c => insertSeq t c.1 c.2) t) w
      = (accAt t w || combos.any (fun c => decide (c.1 = w))) := by
  induction combos generalizing t with
  | nil => simp
  | cons c cs ih =>
    rw [List.foldl_cons, ih, accAt_insert]
    by_cases h : w = c.1
    · simp [h]
    · have h2 : ¬ c.1 = w := fun hh => h hh.symm
      simp [h, h2]

/-- The label the build loop leaves at path `w`: the label of the last combo
whose sequence is `w`, else the accumulator. -/
def lastLabelAux (combos : List (List String × String)) (w : List String)
    (acc : Option String) : Option String :=
  combos.foldl (fun a c => if c.1 = w then some c.2 else a) acc

theorem nameAt_buildFold (combos : List (List String × String)) (t : Trie) (w : List String) :
    nameAt (combos.foldl (fun t c => insertSeq t c.1 c.2) t) w
      = lastLabelAux combos w (nameAt t w) := by
  induction combos generalizing t with
  | nil => rfl
  | cons c cs ih =>
    rw [List.foldl_cons, ih, nameAt_insert]
    show lastLabelAux cs w (if w = c.1 then some c.2 else nameAt t w)
      = lastLabelAux cs w (if c.1 = w then some c.2 else nameAt t w)
    by_cases h : w = c.1
    · rw [if_pos h, if_pos h.symm]
    · rw [if_neg h, if_neg (fun hh => h hh.symm)]

theorem existsAt_buildFold (combos : List (List String × String)) (t : Trie) (w : List String) :
    existsAt (combos.foldl (fun t c => insertSeq t c.1 c.2) t) w
      = (existsAt t w || combos.any (fun c => w.isPrefixOf c.1)) := by
  induction combos generalizing t with
  | nil => simp
  | cons c cs ih =>
    rw [List.foldl_cons, ih, existsAt_insert]
    simp [Bool.or_assoc]

theorem accAt_build (combos : List (List String × String)) (w : List String) :
    accAt (buildTrie combos) w = combos.any (fun c => decide (c.1 = w)) := by
  unfold buildTrie
  rw [accAt_buildFold, accAt_empty]
  simp

theorem nameAt_build (combos : List (List String × String)) (w : List String) :
    nameAt (buildTrie combos) w = lastLabelAux combos w none := by
  unfold buildTrie
  rw [nameAt_buildFold, nameAt_empty]

theorem existsAt_build_ne_nil (combos : List (List String × String)) (w : List String)
    (hw : w ≠ []) :
    existsAt (buildTrie combos) w = combos.any (fun c => w.isPrefixOf c.1) := by
  obtain ⟨y, yr, hyr⟩ := List.exists_cons_of_ne_nil hw
  subst hyr
  unfold buildTrie
  rw [existsAt_buildFold, existsAt_empty_cons]
  simp

theorem lastLabelAux_noMatch (combos : List (List String × String)) (w : List String)
    (h : ∀ c ∈ combos, c.1 ≠ w) : ∀ acc, lastLabelAux combos w acc = acc := by
  induction combos with
  | nil => intro acc; rfl
  | cons c cs ih =>
    intro acc
    show lastLabelAux cs w (if c.1 = w then some c.2 else acc) = acc
    rw [if_neg (h c (by simp))]
    exact ih (fun c' hc' => h c' (by simp [hc'])) acc

theorem lastLabelAux_mem (combos : List (List String × String)) (q : List String)
    (label : String) (hnd : (combos.map Prod.fst).Nodup) (hmem : (q, label) ∈ combos) :
    ∀ acc, lastLabelAux combos q acc = some label := by
  induction combos with
  | nil => cases hmem
  | cons c cs ih =>
    intro acc
    have hnd2 : c.1 ∉ (cs.map Prod.fst) ∧ (cs.map Prod.fst).Nodup := by
      rw [List.map_cons] at hnd
      exact List.nodup_cons.1 hnd
    obtain ⟨hnotmem, htail⟩ := hnd2
    show lastLabelAux cs q (if c.1 = q then some c.2 else acc) = some label
    rcases List.mem_cons.1 hmem with hh | hh
    · have hc1 : c.1 = q := by rw [← hh]
      have hc2 : c.2 = label := by rw [← hh]
      rw [if_pos hc1, hc2]
      refine lastLabelAux_noMatch cs q ?_ _
      intro c' hc' hcq
      have hmm : c'.1 ∈ cs.map Prod.fst := List.mem_map_of_mem Prod.fst hc'
      rw [hcq, ← hc1] at hmm
      exact hnotmem hmm
    · exact ih htail hh _

theorem nodeAt_append_one (w : List String) (t : Trie) (s : String) :
    nodeAt t (w ++ [s]) = (nodeAt t w).bind (fun n => childLookup n s) := by
  induction w generalizing t with
  | nil =>
    rw [List.nil_append, nodeAt_nil]
    cases hc : childLookup t s with
    | some c =>
      rw [nodeAt_child t s [] c hc, nodeAt_nil]
      simp [hc]
    | none =>
      rw [nodeAt_noChild t s [] hc]
      simp [hc]
  | cons x xr ih =>
    rw [List.cons_append]
    cases hc : childLookup t x with
    | some c => rw [nodeAt_child _ _ _ _ hc, nodeAt_child _ _ _ _ hc, ih]
    | none =>
      rw [nodeAt_noChild _ _ _ hc, nodeAt_noChild _ _ _ hc]
      rfl

theorem accAt_of_nodeAt (t : Trie) (w : List String) (nxt : Trie)
    (h : nodeAt t w = some nxt) : accAt t w = nxt.isAcceptT := by
  unfold accAt
  rw [h]

theorem nameAt_of_nodeAt (t : Trie) (w : List String) (nxt : Trie)
    (h : nodeAt t w = some nxt) : nameAt t w = nxt.comboNameT := by
  unfold nameAt
  rw [h]

theorem isPrefixOf_length_le {α : Type} [BEq α] (l1 l2 : List α)
    (h : l1.isPrefixOf l2 = true) : l1.length ≤ l2.length := by
  induction l1 generalizing l2 with
  | nil => simp
  | cons a as ih =>
    cases l2 with
    | nil => simp [List.isPrefixOf] at h
    | cons b bs =>
      simp only [List.isPrefixOf, Bool.and_eq_true] at h
      simpa using ih bs h.2

/-! ### C2: feeding one registered sequence -/

theorem feed_registered_aux (combos : List (List String × String)) (q : List String)
    (label : String)
    (hnd : (combos.map Prod.fst).Nodup)
    (hmem : (q, label) ∈ combos)
    (hpre : ∀ c ∈ combos, c.1.isPrefixOf q = true → c.1 = q ∨ c.1 = []) :
    ∀ (r w : List String) (m : ComboMachine),
      q = w ++ r → r ≠ [] →
      m.root = buildTrie combos →
      nodeAt m.root w = some m.cur →
      (feedAll m r).2 = List.replicate (r.length - 1) none ++ [some label] := by
  intro r
  induction r with
  | nil => intro w m _ hr; exact absurd rfl hr
  | cons s r' ih =>
    intro w m hq hr hroot hcur
    have hqassoc : q = (w ++ [s]) ++ r' := by rw [hq]; simp
    have hex : existsAt m.root (w ++ [s]) = true := by
      rw [hroot, existsAt_build_ne_nil combos (w ++ [s]) (by simp)]
      refine List.any_eq_true.2 ⟨(q, label), hmem, ?_⟩
      show (w ++ [s]).isPrefixOf q = true
      rw [hqassoc]
      exact isPrefixOfAppendSelf _ _
    have hbind : nodeAt m.root (w ++ [s]) = childLookup m.cur s := by
      rw [nodeAt_append_one, hcur]
      rfl
    obtain ⟨nxt, hnxt⟩ : ∃ nxt, childLookup m.cur s = some nxt := by
      unfold existsAt at hex
      rw [hbind] at hex
      exact Option.isSome_iff_exists.1 hex
    have hnode : nodeAt m.root (w ++ [s]) = some nxt := by rw [hbind, hnxt]
    cases r' with
    | nil =>
      have hq2 : w ++ [s] = q := by rw [hqassoc]; simp
      have hacc : nxt.isAcceptT = true := by
        rw [← accAt_of_nodeAt m.root (w ++ [s]) nxt hnode, hq2, hroot, accAt_build]
        exact List.any_eq_true.2 ⟨(q, label), hmem, by simp⟩
      have hname : nxt.comboNameT = some label := by
        rw [← nameAt_of_nodeAt m.root (w ++ [s]) nxt hnode, hq2, hroot, nameAt_build]
        exact lastLabelAux_mem combos q label hnd hmem none
      simp [feedAll, ComboMachine.processInput, hnxt, hacc, hname]
    | cons s2 r'' =>
      have hne_q : ¬ (w ++ [s]) = q := by
        intro hh
        have h3 : (w ++ [s]) ++ (s2 :: r'') = (w ++ [s]) ++ ([] : List String) := by
          rw [List.append_nil]
          exact hqassoc.symm.trans hh.symm
        have h4 := List.append_cancel_left h3
        simp at h4
      have hacc : nxt.isAcceptT = false := by
        rw [← accAt_of_nodeAt m.root (w ++ [s]) nxt hnode, hroot, accAt_build]
        by_contra hanytrue
        have hany : (combos.any (fun c => decide (c.1 = w ++ [s]))) = true := by
          cases hb : combos.any (fun c => decide (c.1 = w ++ [s]))
          · exact absurd hb hanytrue
          · rfl
        obtain ⟨c, hcmem, hcq⟩ := List.any_eq_true.1 hany
        have hcq2 : c.1 = w ++ [s] := of_decide_eq_true hcq
        have hcp : c.1.isPrefixOf q = true := by
          rw [hcq2, hqassoc]
          exact isPrefixOfAppendSelf _ _
        rcases hpre c hcmem hcp with hh | hh
        · exact hne_q (hcq2 ▸ hh)
        · rw [hh] at hcq2
          exact absurd hcq2.symm (by simp)
      have hstep : m.processInput s
          = ({ m with history := m.history ++ [s], cur := nxt }, none) := by
        simp [ComboMachine.processInput, hnxt, hacc]
      have hrec := ih (w ++ [s])
        ({ m with history := m.history ++ [s], cur := nxt }) hqassoc (by simp) hroot hnode
      show ((m.processInput s).2)
          :: (feedAll (m.processInput s).1 (s2 :: r'')).2
        = List.replicate ((s :: s2 :: r'').length - 1) none ++ [some label]
      rw [hstep]
      simp only []
      rw [hrec]
      simp [List.replicate_succ]

/-- Concrete combo set with a registered strict prefix. -/
def exCombosC2 : List (List String × String) := [(["a"], "A"), (["a", "b"], "AB")]

/-- C2 counterexample: the pattern set has no duplicate full sequences, yet
feeding the registered sequence `["a","b"]` into a fresh matcher returns
`some "A"` on the first symbol (the strict-prefix pattern fires and resets),
not `none`-before-last and the label on the final symbol. -/
theorem c2Counterexample :
    (exCombosC2.map Prod.fst).Nodup
    ∧ (["a", "b"], "AB") ∈ exCombosC2
    ∧ (feedAll (buildMachine exCombosC2) ["a", "b"]).2 = [some "A", none]
    ∧ [some ("A" : String), (none : Option String)] ≠ [none, some "AB"] := by
  decide

/-- C2 amended: for a pattern set with no duplicate full sequences, feeding a
fresh matcher one registered nonempty sequence none of whose nonempty strict
prefixes is itself a registered sequence yields `none` for every symbol
before the last one and the pattern's label on the final symbol. -/
theorem c2FeedRegisteredSequence (combos : List (List String × String))
    (q : List String) (label : String)
    (hnd : (combos.map Prod.fst).Nodup)
    (hmem : (q, label) ∈ combos)
    (hq : q ≠ [])
    (hpre : ∀ c ∈ combos, c.1.isPrefixOf q = true → c.1 = q ∨ c.1 = []) :
    (feedAll (buildMachine combos) q).2
      = List.replicate (q.length - 1) none ++ [some label] :=
  feed_registered_aux combos q label hnd hmem hpre q [] (buildMachine combos)
    rfl hq rfl (by rw [nodeAt_nil]; rfl)

def exCombosC2b : List (List String × String) := [(["a", "b"], "AB")]

theorem c2Witness :
    (feedAll (buildMachine exCombosC2b) ["a", "b"]).2 = [none, some "AB"] := by
  have h := c2FeedRegisteredSequence exCombosC2b ["a", "b"] "AB"
    (by decide) (by decide) (by decide) (by decide)
  exact h

/-! ### C10: progress percentage bounds -/

/-- Invariant of machine states reachable from `buildMachine combos`: the
root is the built trie, the combo list is `combos`, and the consumed history
is a path from the root ending at the current node. -/
def MachineInv (combos : List (List String × String)) (m : ComboMachine) : Prop :=
  m.root = buildTrie combos ∧ m.comboList = combos
    ∧ (m.history = [] → m.cur = m.root)
    ∧ (m.history ≠ [] → nodeAt m.root m.history = some m.cur)

theorem buildMachine_inv (combos : List (List String × String)) :
    MachineInv combos (buildMachine combos) :=
  ⟨rfl, rfl, fun _ => rfl, fun h => absurd rfl h⟩

theorem resetM_inv (combos : List (List String × String)) (m : ComboMachine)
    (h : MachineInv combos m) : MachineInv combos m.resetM :=
  ⟨h.1, h.2.1, fun _ => rfl, fun hh => absurd rfl hh⟩

theorem processInput_inv (combos : List (List String × String)) (m : ComboMachine)
    (s : String) (h : MachineInv combos m) : MachineInv combos (m.processInput s).1 := by
  obtain ⟨h1, h2, h3, h4⟩ := h
  cases hc : childLookup m.cur s with
  | some nxt =>
    have hnode : nodeAt m.root (m.history ++ [s]) = some nxt := by
      rw [nodeAt_append_one]
      by_cases hh : m.history = []
      · rw [hh, nodeAt_nil]
        show childLookup m.root s = some nxt
        rw [← h3 hh]
        exact hc
      · rw [h4 hh]
        exact hc
    have hm' : MachineInv combos { m with history := m.history ++ [s], cur := nxt } :=
      ⟨h1, h2, fun hh => absurd hh (by simp), fun _ => hnode⟩
    cases ha : nxt.isAcceptT with
    | true =>
      have : (m.processInput s).1
          = ({ m with history := m.history ++ [s], cur := nxt } : ComboMachine).resetM := by
        simp [ComboMachine.processInput, hc, ha]
      rw [this]
      exact resetM_inv combos _ hm'
    | false =>
      have : (m.processInput s).1 = { m with history := m.history ++ [s], cur := nxt } := by
        simp [ComboMachine.processInput, hc, ha]
      rw [this]
      exact hm'
  | none =>
    cases hc2 : childLookup m.root s with
    | none =>
      have : (m.processInput s).1 = m.resetM := by
        simp [ComboMachine.processInput, hc, hc2]
      rw [this]
      exact resetM_inv combos m ⟨h1, h2, h3, h4⟩
    | some nxt =>
      have hnode : nodeAt m.root [s] = some nxt := by
        rw [nodeAt_child m.root s [] nxt hc2, nodeAt_nil]
      have hm' : MachineInv combos { m with history := [s], cur := nxt } :=
        ⟨h1, h2, fun hh => absurd hh (by simp), fun _ => hnode⟩
      cases ha : nxt.isAcceptT with
      | true =>
        have : (m.processInput s).1
            = ({ m with history := [s], cur := nxt } : ComboMachine).resetM := by
          simp [ComboMachine.processInput, hc, hc2, ha]
        rw [this]
        exact resetM_inv combos _ hm'
      | false =>
        have : (m.processInput s).1 = { m with history := [s], cur := nxt } := by
          simp [ComboMachine.processInput, hc, hc2, ha]
        rw [this]
        exact hm'

theorem feedAll_inv (combos : List (List String × String)) (inputs : List String)
    (m : ComboMachine) (h : MachineInv combos m) :
    MachineInv combos (feedAll m inputs).1 := by
  induction inputs generalizing m with
  | nil => exact h
  | cons s rest ih =>
    show MachineInv combos (feedAll (m.processInput s).1 rest).1
    exact ih _ (processInput_inv combos m s h)

theorem maxLenFold_ge_acc (history : List String) (l : List (List String × String)) :
    ∀ acc, acc ≤ l.foldl (maxLenStep history) acc := by
  induction l with
  | nil => intro acc; exact le_refl _
  | cons c cs ih =>
    intro acc
    refine le_trans ?_ (ih (maxLenStep history acc c))
    unfold maxLenStep
    by_cases h1 : c.1.length > acc
    · by_cases h2 : history.isPrefixOf c.1 = true
      · rw [if_pos h1, if_pos h2]
        omega
      · rw [if_pos h1, if_neg h2]
    · rw [if_neg h1]

theorem maxLenFold_reach (history : List String) (c : List String × String)
    (hp : history.isPrefixOf c.1 = true) :
    ∀ (l : List (List String × String)), c ∈ l →
      ∀ acc, history.length ≤ l.foldl (maxLenStep history) acc := by
  intro l
  induction l with
  | nil => intro hc; cases hc
  | cons d ds ih =>
    intro hc acc
    rcases List.mem_cons.1 hc with hh | hh
    · subst hh
      show history.length ≤ ds.foldl (maxLenStep history) (maxLenStep history acc c)
      refine le_trans ?_ (maxLenFold_ge_acc history ds (maxLenStep history acc c))
      have hlen := isPrefixOf_length_le history c.1 hp
      unfold maxLenStep
      by_cases h1 : c.1.length > acc
      · rw [if_pos h1, if_pos hp]
        exact hlen
      · rw [if_neg h1]
        omega
    · exact ih hh (maxLenStep history acc d)

theorem computeMaxLen_ge (comboList : List (List String × String))
    (history : List String) (c : List String × String) (hc : c ∈ comboList)
    (hp : history.isPrefixOf c.1 = true) :
    history.length ≤ computeMaxLen comboList history :=
  maxLenFold_reach history c hp comboList hc 0

/-- C10: for every matcher built from any pattern set and any sequence of
`process_input` calls, the progress percentage lies in `[0, 1]` and is `0`
exactly when the consumed history is empty; the history is always a path
from the root, hence a prefix of some registered pattern. -/
theorem c10ProgressBounds (combos : List (List String × String)) (inputs : List String) :
    0 ≤ (feedAll (buildMachine combos) inputs).1.getProgress
    ∧ (feedAll (buildMachine combos) inputs).1.getProgress ≤ 1
    ∧ ((feedAll (buildMachine combos) inputs).1.getProgress = 0
        ↔ (feedAll (buildMachine combos) inputs).1.history = []) := by
  obtain ⟨h1, h2, h3, h4⟩ :=
    feedAll_inv combos inputs (buildMachine combos) (buildMachine_inv combos)
  set m := (feedAll (buildMachine combos) inputs).1 with hm
  by_cases hh : m.history = []
  · simp [ComboMachine.getProgress, hh]
  · have hnode := h4 hh
    have hex : existsAt m.root m.history = true := by
      unfold existsAt
      rw [hnode]
      rfl
    rw [h1, existsAt_build_ne_nil combos _ hh] at hex
    obtain ⟨c, hcmem, hcp⟩ := List.any_eq_true.1 hex
    have hmax : m.history.length ≤ computeMaxLen m.comboList m.history := by
      rw [h2]
      exact computeMaxLen_ge combos _ c hcmem hcp
    have hlen1 : 1 ≤ m.history.length := by
      cases hl : m.history with
      | nil => exact absurd hl hh
      | cons a l => simp
    have hmaxpos : 0 < computeMaxLen m.comboList m.history := by omega
    have hprog : m.getProgress
        = (m.history.length : ℚ) / (computeMaxLen m.comboList m.history : ℚ) := by
      simp only [ComboMachine.getProgress]
      rw [if_neg hh, if_neg (by omega)]
    have hq0 : (0:ℚ) < (computeMaxLen m.comboList m.history : ℚ) := by
      exact_mod_cast hmaxpos
    have hqpos : (0:ℚ) < m.getProgress := by
      rw [hprog]
      exact div_pos (by exact_mod_cast hlen1) hq0
    refine ⟨le_of_lt hqpos, ?_, ?_⟩
    · rw [hprog, div_le_one hq0]
      exact_mod_cast hmax
    · constructor
      · intro h0
        rw [h0] at hqpos
        exact absurd hqpos (lt_irrefl 0)
      · intro h0
        exact absurd h0 hh

/-! ### `expression_converter.py` (the parts C6 exercises)

`ConversionResult` is modelled by its `success` flag and `result_expression`;
the presentation-only `steps` trace, the echoed notation tags and the
`error_message` string (which only forwards the validator's message) are
omitted.  Operator/value stacks that Python keeps as lists with `append`/
`pop()` at the end are modelled top-first (head = Python's last element). -/

/-- `ExpressionConverter._get_precedence`: `PRECEDENCE.get(op, 0)`. -/
def precOf (t : List Char) : Nat :=
  if t = ['+'] then 1
  else if t = ['-'] then 1
  else if t = ['*'] then 2
  else if t = ['/'] then 2
  else 0

/-- `ExpressionConverter._is_left_associative`: every table entry is `True`,
and the default is `True`. -/
def leftAssocOf (_ : List Char) : Bool := true

structure ConvResult where
  success : Bool
  result : List Char
deriving DecidableEq

/-- Python `' '.join(tokens)`. -/
def joinSpace : List (List Char) → List Char
  | [] => []
  | [t] => t
  | t :: ts => t ++ (' ' :: joinSpace ts)

/-- The value-stack loop of `ExpressionConverter.postfix_to_infix` plus the
final single-element check; `none` models the early error returns.  Tokens
that are neither operands nor operators are skipped, as in the source loop. -/
def p2iLoop : List (List Char) → List (List Char) → Option (List Char)
  | [], st =>
    match st with
    | [x] => some x
    | _ => none
  | tok :: rest, st =>
    if isDigitsTok tok then p2iLoop rest (tok :: st)
    else if isOperatorTok tok then
      match st with
      | op2 :: op1 :: st' => p2iLoop rest ((['('] ++ op1 ++ tok ++ op2 ++ [')']) :: st')
      | _ => none
    else p2iLoop rest st

/-- `ExpressionConverter.postfix_to_infix`. -/
def postfixToInfixC (expr : List Char) : ConvResult :=
  if (postfixValidateL expr).isValid = true then
    match p2iLoop (tokenizePostfixL expr) [] with
    | some res => ⟨true, res⟩
    | none => ⟨false, []⟩
  else ⟨false, []⟩

/-- The precedence-driven pop loop inside `infix_to_postfix`'s operator case:
pop while the top is an operator other than `(` with strictly greater
precedence, or equal precedence with a left-associative incoming token. -/
def shuntPopOps (tok : List Char) : List (List Char) → List (List Char) × List (List Char)
  | [] => ([], [])
  | top :: st =>
    if top ≠ ['('] ∧ isOperatorTok top = true
        ∧ (precOf tok < precOf top ∨ (precOf top = precOf tok ∧ leftAssocOf tok = true)) then
      let r := shuntPopOps tok st
      (top :: r.1, r.2)
    else ([], top :: st)

/-- The pop-until-`(` loop inside `infix_to_postfix`'s `)` case. -/
def shuntPopUntilParen : List (List Char) → List (List Char) × List (List Char)
  | [] => ([], [])
  | top :: st =>
    if top ≠ ['('] then
      let r := shuntPopUntilParen st
      (top :: r.1, r.2)
    else ([], top :: st)

/-- The token loop of `infix_to_postfix` (Shunting-yard), returning the
output list and the remaining operator stack. -/
def shuntLoop : List (List Char) → List (List Char) → List (List Char) →
    List (List Char) × List (List Char)
  | [], out, st => (out, st)
  | tok :: rest, out, st =>
    if isDigitsTok tok then shuntLoop rest (out ++ [tok]) st
    else if isOperatorTok tok then
      let r := shuntPopOps tok st
      shuntLoop rest (out ++ r.1) (tok :: r.2)
    else if tok = ['('] then shuntLoop rest out (tok :: st)
    else if tok = [')'] then
      let r := shuntPopUntilParen st
      shuntLoop rest (out ++ r.1) r.2.tail
    else shuntLoop rest out st

/-- `ExpressionConverter.infix_to_postfix`: validate, run the Shunting-yard
loop, pop the remaining operators (top-first), join with spaces. -/
def infixToPostfixC (expr : List Char) : ConvResult :=
  if (infixValidateL expr).isValid = true then
    let r := shuntLoop (tokenizeInfixL expr) [] []
    ⟨true, joinSpace (r.1 ++ r.2)⟩
  else ⟨false, []⟩

/-- The module-level convenience function `postfix_to_infix` (empty string on
failure). -/
def p2iS (expr : List Char) : List Char :=
  let r := postfixToInfixC expr
  if r.success then r.result else []

/-- The module-level convenience function `infix_to_postfix`. -/
def i2pS (expr : List Char) : List Char :=
  let r := infixToPostfixC expr
  if r.success then r.result else []

/-! ### C6: round-trip infrastructure -/

/-- Binary expression trees over raw tokens: the common shape behind the
postfix token stream, the fully parenthesized infix rendering built by
`postfix_to_infix`, and the Shunting-yard output. -/
inductive Expr where
  | leafE (tok : List Char)
  | binE (op : List Char) (a b : Expr)

/-- Trees arising from single-digit-operand postfix inputs. -/
def GoodTree : Expr → Prop
  | Expr.leafE tok => ∃ d, d.isDigit = true ∧ tok = [d]
  | Expr.binE op a b => isOperatorTok op = true ∧ GoodTree a ∧ GoodTree b

/-- The fully parenthesized rendering `(operand1 op operand2)` that
`postfix_to_infix` builds. -/
def renderE : Expr → List Char
  | Expr.leafE tok => tok
  | Expr.binE op a b => ['('] ++ renderE a ++ op ++ renderE b ++ [')']

/-- The token sequence of the rendering. -/
def infixToks : Expr → List (List Char)
  | Expr.leafE tok => [tok]
  | Expr.binE op a b => [['(']] ++ infixToks a ++ [op] ++ infixToks b ++ [[')']]

/-- The postorder (postfix) token sequence of a tree. -/
def postToks : Expr → List (List Char)
  | Expr.leafE tok => [tok]
  | Expr.binE op a b => postToks a ++ postToks b ++ [op]

/-- Parsing a postfix token stream with an expression stack (top first),
following the same stack discipline as the validator's counter and
`postfix_to_infix`'s value stack. -/
def parsePost : List (List Char) → List Expr → Option (List Expr)
  | [], st => some st
  | tok :: rest, st =>
    if classifyTokenS tok = "OPERAND" then parsePost rest (Expr.leafE tok :: st)
    else
      match st with
      | b :: a :: st' => parsePost rest (Expr.binE tok a b :: st')
      | _ => none

/-- Tokens of a single-digit-operand postfix expression. -/
def SingleDigitOrOp (t : List Char) : Prop :=
  (∃ d, d.isDigit = true ∧ t = [d]) ∨ isOperatorTok t = true

theorem isOperatorTok_cases (t : List Char) (h : isOperatorTok t = true) :
    t = ['+'] ∨ t = ['-'] ∨ t = ['*'] ∨ t = ['/'] := by
  unfold isOperatorTok at h
  simp at h
  tauto

theorem opTokenShape (t : List Char) (h : isOperatorTok t = true) :
    ∃ o, t = [o] ∧ o.isDigit = false ∧ isOpChar o = true := by
  rcases isOperatorTok_cases t h with hh | hh | hh | hh <;> subst hh
  · exact ⟨'+', rfl, by decide, by decide⟩
  · exact ⟨'-', rfl, by decide, by decide⟩
  · exact ⟨'*', rfl, by decide, by decide⟩
  · exact ⟨'/', rfl, by decide, by decide⟩

theorem beqCharFalse (d c : Char) (hd : d.isDigit = true) (hc : c.isDigit = false) :
    (d == c) = false := by
  cases h : d == c
  · rfl
  · exfalso
    rw [eq_of_beq h, hc] at hd
    exact Bool.noConfusion hd

theorem isOperatorTok_digit (d : Char) (hd : d.isDigit = true) :
    isOperatorTok [d] = false := by
  unfold isOperatorTok
  have h1 : (([d] : List Char) == ['+']) = false := by
    simp [beqCharFalse d '+' hd (by decide)]
  have h2 : (([d] : List Char) == ['-']) = false := by
    simp [beqCharFalse d '-' hd (by decide)]
  have h3 : (([d] : List Char) == ['*']) = false := by
    simp [beqCharFalse d '*' hd (by decide)]
  have h4 : (([d] : List Char) == ['/']) = false := by
    simp [beqCharFalse d '/' hd (by decide)]
  rw [h1, h2, h3, h4]
  rfl

theorem isDigitsTok_digit (d : Char) (hd : d.isDigit = true) :
    isDigitsTok [d] = true := by
  simp [isDigitsTok, hd]

theorem isDigitsTok_op (t : List Char) (h : isOperatorTok t = true) :
    isDigitsTok t = false := by
  rcases isOperatorTok_cases t h with hh | hh | hh | hh <;> subst hh <;> decide

theorem isSpaceChar_digit (d : Char) (hd : d.isDigit = true) :
    isSpaceChar d = false := by
  unfold isSpaceChar
  rw [beqCharFalse d ' ' hd (by decide), beqCharFalse d '\t' hd (by decide),
      beqCharFalse d '\n' hd (by decide), beqCharFalse d '\r' hd (by decide),
      beqCharFalse d '\x0b' hd (by decide), beqCharFalse d '\x0c' hd (by decide)]
  rfl

theorem classify_digit (d : Char) (hd : d.isDigit = true) :
    classifyTokenS [d] = "OPERAND" := by
  have h1 : invMark.isPrefixOf [d] = false := by
    show List.isPrefixOf ('I' :: 'N' :: 'V' :: 'A' :: 'L' :: 'I' :: 'D' :: ':' :: []) [d] = false
    simp [List.isPrefixOf]
  have h2 : isOperatorTok [d] = false := isOperatorTok_digit d hd
  have h3 : ¬ (([d] : List Char) = ['(']) := by
    intro hh
    injection hh with hd2 _
    rw [hd2] at hd
    exact absurd hd (by decide)
  have h4 : ¬ (([d] : List Char) = [')']) := by
    intro hh
    injection hh with hd2 _
    rw [hd2] at hd
    exact absurd hd (by decide)
  have h5 : isDigitsTok [d] = true := isDigitsTok_digit d hd
  unfold classifyTokenS
  rw [if_neg (by simp [h1]), if_neg (by simp [h2]), if_neg h3, if_neg h4, if_pos h5]

theorem classify_of_op (t : List Char) (h : isOperatorTok t = true) :
    classifyTokenS t = "OPERATOR" := by
  rcases isOperatorTok_cases t h with hh | hh | hh | hh <;> subst hh <;> decide

theorem classify_lparen : classifyTokenS [('(')] = "LPAREN" := by decide

theorem classify_rparen : classifyTokenS [(')')] = "RPAREN" := by decide

theorem singleDigitOrOp_classify (t : List Char) (h : SingleDigitOrOp t) :
    classifyTokenS t = "OPERAND" ∨ classifyTokenS t = "OPERATOR" := by
  rcases h with ⟨d, hd, rfl⟩ | hop
  · exact Or.inl (classify_digit d hd)
  · exact Or.inr (classify_of_op t hop)

theorem parsePost_of_count (ts : List (List Char)) :
    ∀ (n k : Nat) (st : List Expr), st.length = n →
      counterDiscipline n ts = CountOutcome.done k →
      (∀ t ∈ ts, SingleDigitOrOp t) →
      ∃ st', parsePost ts st = some st' ∧ st'.length = k := by
  induction ts with
  | nil =>
    intro n k st hlen h _
    exact ⟨st, rfl, by rw [hlen]; exact CountOutcome.done.inj h⟩
  | cons tok rest ih =>
    intro n k st hlen h hall
    have htail : ∀ t ∈ rest, SingleDigitOrOp t := fun t ht => hall t (by simp [ht])
    rcases hall tok (by simp) with ⟨d, hd, rfl⟩ | hop
    · have hcl := classify_digit d hd
      rw [show parsePost ([d] :: rest) st = parsePost rest (Expr.leafE [d] :: st) from by
        simp [parsePost, hcl]]
      simp [counterDiscipline, hcl] at h
      exact ih (n + 1) k _ (by simp [hlen]) h htail
    · have hcl := classify_of_op _ hop
      have hclne : ¬ classifyTokenS tok = "OPERAND" := by rw [hcl]; decide
      simp [counterDiscipline, hcl] at h
      by_cases hn : 2 ≤ n
      · rw [if_pos hn] at h
        cases st with
        | nil => rw [← hlen] at hn; simp at hn
        | cons b st1 =>
          cases st1 with
          | nil => rw [← hlen] at hn; simp at hn
          | cons a st2 =>
            rw [show parsePost (tok :: rest) (b :: a :: st2)
                = parsePost rest (Expr.binE tok a b :: st2) from by
              simp [parsePost, hclne]]
            refine ih (n - 1) k _ ?_ h htail
            simp at hlen
            simp
            omega
      · rw [if_neg hn] at h
        exact absurd h (by simp)

theorem parsePost_good (ts : List (List Char)) :
    ∀ (st st' : List Expr), (∀ t ∈ ts, SingleDigitOrOp t) → (∀ e ∈ st, GoodTree e) →
      parsePost ts st = some st' → ∀ e ∈ st', GoodTree e := by
  induction ts with
  | nil =>
    intro st st' _ hst hp
    have : st = st' := Option.some.inj hp
    rw [← this]
    exact hst
  | cons tok rest ih =>
    intro st st' hall hst hp
    have htail : ∀ t ∈ rest, SingleDigitOrOp t := fun t ht => hall t (by simp [ht])
    rcases hall tok (by simp) with ⟨d, hd, rfl⟩ | hop
    · have hcl := classify_digit d hd
      rw [show parsePost ([d] :: rest) st = parsePost rest (Expr.leafE [d] :: st) from by
        simp [parsePost, hcl]] at hp
      refine ih _ st' htail ?_ hp
      intro e he
      rcases List.mem_cons.1 he with rfl | he2
      · exact ⟨d, hd, rfl⟩
      · exact hst e he2
    · have hclne : ¬ classifyTokenS tok = "OPERAND" := by rw [classify_of_op _ hop]; decide
      cases st with
      | nil => simp [parsePost, hclne] at hp
      | cons b st1 =>
        cases st1 with
        | nil => simp [parsePost, hclne] at hp
        | cons a st2 =>
          rw [show parsePost (tok :: rest) (b :: a :: st2)
              = parsePost rest (Expr.binE tok a b :: st2) from by
            simp [parsePost, hclne]] at hp
          refine ih _ st' htail ?_ hp
          intro e he
          rcases List.mem_cons.1 he with rfl | he2
          · exact ⟨hop, hst a (by simp), hst b (by simp)⟩
          · exact hst e (by simp [he2])

theorem valid_postfix_to_tree (ts : List (List Char))
    (hall : ∀ t ∈ ts, SingleDigitOrOp t)
    (hvalid : (postfixCoreOnTokens ts).isValid = true) :
    ∃ tree, parsePost ts [] = some [tree] ∧ GoodTree tree := by
  by_cases hne : ts = []
  · rw [hne] at hvalid
    exact absurd hvalid (by decide)
  have hcls : ∀ t ∈ ts, classifyTokenS t = "OPERAND" ∨ classifyTokenS t = "OPERATOR" :=
    fun t ht => singleDigitOrOp_classify t (hall t ht)
  obtain ⟨hfail, hdone⟩ := postfixLoop_counter ts 0 (PdaStack.fresh ("Z0")) hcls
  have hcore : postfixCoreOnTokens ts = postfixLoop 0 (PdaStack.fresh ("Z0")) ts := by
    unfold postfixCoreOnTokens
    rw [if_neg hne]
  cases hcd : counterDiscipline 0 ts with
  | failedAt tk =>
    rw [hcore, hfail tk hcd] at hvalid
    simp at hvalid
  | done k =>
    rw [hcore, hdone k hcd] at hvalid
    have hk : k = 1 := by
      by_cases h1 : k = 1
      · exact h1
      · rw [if_neg h1] at hvalid
        by_cases h2 : 1 < k
        · rw [if_pos h2] at hvalid
          simp at hvalid
        · rw [if_neg h2] at hvalid
          simp at hvalid
    subst hk
    obtain ⟨st', hps, hlen⟩ := parsePost_of_count ts 0 1 [] rfl hcd hall
    cases st' with
    | nil => simp at hlen
    | cons tree st2 =>
      cases st2 with
      | nil =>
        exact ⟨tree, hps, parsePost_good ts [] [tree] hall (by simp) hps tree (by simp)⟩
      | cons e2 st3 => simp at hlen

/-- The final single-element check of `postfix_to_infix`, on the parse stack. -/
def finalizeRender : List Expr → Option (List Char)
  | [e] => some (renderE e)
  | _ => none

theorem p2iLoop_parse (ts : List (List Char)) :
    ∀ st, (∀ t ∈ ts, SingleDigitOrOp t) →
      p2iLoop ts (st.map renderE) = (parsePost ts st).bind finalizeRender := by
  induction ts with
  | nil =>
    intro st _
    cases st with
    | nil => simp [p2iLoop, parsePost, finalizeRender]
    | cons e st2 =>
      cases st2 with
      | nil => simp [p2iLoop, parsePost, finalizeRender]
      | cons e2 st3 => simp [p2iLoop, parsePost, finalizeRender]
  | cons tok rest ih =>
    intro st hall
    have htail : ∀ t ∈ rest, SingleDigitOrOp t := fun t ht => hall t (by simp [ht])
    rcases hall tok (by simp) with ⟨d, hd, rfl⟩ | hop
    · have h5 := isDigitsTok_digit d hd
      have hcl := classify_digit d hd
      rw [show p2iLoop ([d] :: rest) (st.map renderE)
          = p2iLoop rest (([d]) :: st.map renderE) from by simp [p2iLoop, h5]]
      rw [show parsePost ([d] :: rest) st = parsePost rest (Expr.leafE [d] :: st) from by
        simp [parsePost, hcl]]
      have := ih (Expr.leafE [d] :: st) htail
      simpa [renderE] using this
    · have hdig := isDigitsTok_op tok hop
      have hclne : ¬ classifyTokenS tok = "OPERAND" := by rw [classify_of_op _ hop]; decide
      cases st with
      | nil => simp [p2iLoop, parsePost, hdig, hop, hclne]
      | cons b st1 =>
        cases st1 with
        | nil => simp [p2iLoop, parsePost, hdig, hop, hclne]
        | cons a st2 =>
          rw [show p2iLoop (tok :: rest) ((b :: a :: st2).map renderE)
              = p2iLoop rest ((['('] ++ renderE a ++ tok ++ renderE b ++ [')'])
                  :: st2.map renderE) from by simp [p2iLoop, hdig, hop]]
          rw [show parsePost (tok :: rest) (b :: a :: st2)
              = parsePost rest (Expr.binE tok a b :: st2) from by simp [parsePost, hclne]]
          have := ih (Expr.binE tok a b :: st2) htail
          simpa [renderE] using this

theorem p2iS_render (ts : List (List Char)) (tree : Expr)
    (hall : ∀ t ∈ ts, SingleDigitOrOp t)
    (hvalid : (postfixValidateL (joinSpace ts)).isValid = true)
    (htok : tokenizePostfixL (joinSpace ts) = ts)
    (hps : parsePost ts [] = some [tree]) :
    p2iS (joinSpace ts) = renderE tree := by
  unfold p2iS postfixToInfixC
  rw [if_pos hvalid, htok]
  have hloop : p2iLoop ts [] = (parsePost ts []).bind finalizeRender := by
    have := p2iLoop_parse ts [] hall
    simpa using this
  rw [hloop, hps]
  simp [finalizeRender]

/-! ### C6: tokenization of canonically space-separated token lists -/

theorem splitWsAux_chunk (t : List Char) (h : ∀ c ∈ t, isSpaceChar c = false) :
    ∀ (r cur : List Char) (acc : List (List Char)),
      splitWsAux (t ++ r) cur acc = splitWsAux r (cur ++ t) acc := by
  induction t with
  | nil => intro r cur acc; simp
  | cons c t' ih =>
    intro r cur acc
    have hc := h c (by simp)
    have ht' : ∀ x ∈ t', isSpaceChar x = false := fun x hx => h x (by simp [hx])
    rw [List.cons_append,
        show splitWsAux (c :: (t' ++ r)) cur acc = splitWsAux (t' ++ r) (cur ++ [c]) acc
          from by simp [splitWsAux, hc],
        ih ht' r (cur ++ [c]) acc,
        show (cur ++ [c]) ++ t' = cur ++ (c :: t') from by simp]

theorem splitWs_joinSpace (ts : List (List Char))
    (h : ∀ t ∈ ts, t ≠ [] ∧ ∀ c ∈ t, isSpaceChar c = false) :
    ∀ acc, splitWsAux (joinSpace ts) [] acc = acc ++ ts := by
  induction ts with
  | nil => intro acc; simp [joinSpace, splitWsAux]
  | cons t ts' ih =>
    intro acc
    obtain ⟨hne, hsp⟩ := h t (by simp)
    have htail : ∀ x ∈ ts', x ≠ [] ∧ ∀ c ∈ x, isSpaceChar c = false :=
      fun x hx => h x (by simp [hx])
    cases ts' with
    | nil =>
      rw [show joinSpace [t] = t from rfl]
      have hch := splitWsAux_chunk t hsp [] [] acc
      rw [List.append_nil] at hch
      rw [hch]
      simp [splitWsAux, hne]
    | cons t2 ts'' =>
      rw [show joinSpace (t :: t2 :: ts'') = t ++ (' ' :: joinSpace (t2 :: ts'')) from rfl,
          splitWsAux_chunk t hsp _ [] acc,
          show splitWsAux (' ' :: joinSpace (t2 :: ts'')) ([] ++ t) acc
            = splitWsAux (joinSpace (t2 :: ts'')) [] (acc ++ [t]) from by
              simp [splitWsAux, hne, show isSpaceChar ' ' = true from by decide],
          ih htail (acc ++ [t])]
      simp

theorem singleDigitOrOp_spaceFree (t : List Char) (ht : SingleDigitOrOp t) :
    t ≠ [] ∧ ∀ c ∈ t, isSpaceChar c = false := by
  rcases ht with ⟨d, hd, rfl⟩ | hop
  · refine ⟨by simp, ?_⟩
    intro c hc
    have : c = d := by simpa using hc
    rw [this]
    exact isSpaceChar_digit d hd
  · rcases isOperatorTok_cases t hop with hh | hh | hh | hh <;> subst hh <;>
      exact ⟨by simp, by decide⟩

theorem tokenizePostfix_joinSpace (ts : List (List Char))
    (hall : ∀ t ∈ ts, SingleDigitOrOp t) :
    tokenizePostfixL (joinSpace ts) = ts := by
  unfold tokenizePostfixL
  rw [show splitWsAux (joinSpace ts) [] [] = [] ++ ts from
    splitWs_joinSpace ts (fun t ht => singleDigitOrOp_spaceFree t (hall t ht)) []]
  rw [List.nil_append]
  have hid : ∀ t ∈ ts,
      (if isOperatorTok t then t else if isDigitsTok t then t else invMark ++ t) = t := by
    intro t ht
    rcases hall t ht with ⟨d, hd, rfl⟩ | hop
    · rw [if_neg (by simp [isOperatorTok_digit d hd]), if_pos (isDigitsTok_digit d hd)]
    · rw [if_pos hop]
  rw [List.map_congr_left hid]
  simp

/-! ### C6: tokenizing the rendered expression -/

theorem tokenizeInfixAux_flush (c : Char) (hc : c.isDigit = false)
    (r : List Char) (d : Char) (acc : List (List Char)) :
    tokenizeInfixAux (c :: r) [d] acc = tokenizeInfixAux (c :: r) [] (acc ++ [[d]]) := by
  simp [tokenizeInfixAux, hc]

theorem tokenizeInfixAux_render (T : Expr) (hg : GoodTree T) :
    ∀ (rest : List Char) (acc : List (List Char)),
      (rest = [] ∨ ∃ c r, rest = c :: r ∧ c.isDigit = false) →
      tokenizeInfixAux (renderE T ++ rest) [] acc
        = tokenizeInfixAux rest [] (acc ++ infixToks T) := by
  induction T with
  | leafE tok =>
    intro rest acc hrest
    obtain ⟨d, hd, rfl⟩ := hg
    rw [show renderE (Expr.leafE [d]) ++ rest = d :: rest from rfl,
        show tokenizeInfixAux (d :: rest) [] acc = tokenizeInfixAux rest ([d]) acc from by
          simp [tokenizeInfixAux, hd]]
    rcases hrest with rfl | ⟨c, r, rfl, hc⟩
    · simp [tokenizeInfixAux, infixToks]
    · rw [tokenizeInfixAux_flush c hc r d acc]
      rfl
  | binE op a b iha ihb =>
    intro rest acc hrest
    obtain ⟨hop, hga, hgb⟩ := hg
    obtain ⟨o, rfl, hod, hoc⟩ := opTokenShape op hop
    rw [show renderE (Expr.binE [o] a b) ++ rest
        = '(' :: (renderE a ++ ([o] ++ (renderE b ++ (')' :: rest)))) from by
      simp [renderE]]
    rw [show tokenizeInfixAux
          ('(' :: (renderE a ++ ([o] ++ (renderE b ++ (')' :: rest))))) [] acc
        = tokenizeInfixAux (renderE a ++ ([o] ++ (renderE b ++ (')' :: rest)))) []
            (acc ++ [['(']]) from by
      simp [tokenizeInfixAux, show ('(').isDigit = false from by decide,
            show isOpChar '(' = false from by decide]]
    rw [iha hga ([o] ++ (renderE b ++ (')' :: rest))) (acc ++ [['(']])
        (Or.inr ⟨o, _, rfl, hod⟩)]
    rw [show tokenizeInfixAux ([o] ++ (renderE b ++ (')' :: rest))) []
          (acc ++ [['(']] ++ infixToks a)
        = tokenizeInfixAux (renderE b ++ (')' :: rest)) []
            (acc ++ [['(']] ++ infixToks a ++ [[o]]) from by
      simp [tokenizeInfixAux, hod, hoc]]
    rw [ihb hgb (')' :: rest) (acc ++ [['(']] ++ infixToks a ++ [[o]])
        (Or.inr ⟨')', rest, rfl, by decide⟩)]
    rw [show tokenizeInfixAux (')' :: rest) []
          (acc ++ [['(']] ++ infixToks a ++ [[o]] ++ infixToks b)
        = tokenizeInfixAux rest []
            (acc ++ [['(']] ++ infixToks a ++ [[o]] ++ infixToks b ++ [[')']]) from by
      simp [tokenizeInfixAux, show (')').isDigit = false from by decide,
            show isOpChar ')' = false from by decide]]
    rw [show infixToks (Expr.binE [o] a b)
        = [['(']] ++ infixToks a ++ [[o]] ++ infixToks b ++ [[')']] from rfl]
    simp [List.append_assoc]

theorem tokenizeInfix_render (T : Expr) (hg : GoodTree T) :
    tokenizeInfixL (renderE T) = infixToks T := by
  unfold tokenizeInfixL
  have := tokenizeInfixAux_render T hg [] [] (Or.inl rfl)
  rw [List.append_nil] at this
  rw [this]
  simp [tokenizeInfixAux]

/-! ### C6: Shunting-yard on the rendered tokens -/

theorem shuntPopOps_parenTop (tok : List Char) (st : List (List Char)) :
    shuntPopOps tok (['('] :: st) = ([], ['('] :: st) := by
  simp [shuntPopOps]

theorem shuntLoop_tree (T : Expr) (hg : GoodTree T) :
    ∀ (rest : List (List Char)) (out st : List (List Char)),
      shuntLoop (infixToks T ++ rest) out st = shuntLoop rest (out ++ postToks T) st := by
  induction T with
  | leafE tok =>
    intro rest out st
    obtain ⟨d, hd, rfl⟩ := hg
    rw [show infixToks (Expr.leafE [d]) ++ rest = ([d]) :: rest from rfl,
        show shuntLoop (([d]) :: rest) out st = shuntLoop rest (out ++ [[d]]) st from by
          simp [shuntLoop, isDigitsTok_digit d hd]]
    rfl
  | binE op a b iha ihb =>
    intro rest out st
    obtain ⟨hop, hga, hgb⟩ := hg
    obtain ⟨o, rfl, hod, hoc⟩ := opTokenShape op hop
    have hone : ¬ (([o] : List Char) = ['(']) := by
      intro hh
      injection hh with h1 _
      rw [h1] at hoc
      exact absurd hoc (by decide)
    rw [show infixToks (Expr.binE [o] a b) ++ rest
        = (['(']) :: (infixToks a ++ (([o]) :: (infixToks b ++ (([')']) :: rest)))) from by
      simp [infixToks]]
    rw [show shuntLoop ((['(']) :: (infixToks a ++ (([o]) :: (infixToks b
          ++ (([')']) :: rest))))) out st
        = shuntLoop (infixToks a ++ (([o]) :: (infixToks b ++ (([')']) :: rest)))) out
            ((['(']) :: st) from by
      simp [shuntLoop, show isDigitsTok ['('] = false from by decide,
            show isOperatorTok ['('] = false from by decide]]
    rw [iha hga _ out ((['(']) :: st)]
    rw [show shuntLoop (([o]) :: (infixToks b ++ (([')']) :: rest))) (out ++ postToks a)
          ((['(']) :: st)
        = shuntLoop (infixToks b ++ (([')']) :: rest)) (out ++ postToks a)
            (([o]) :: (['(']) :: st) from by
      simp [shuntLoop, isDigitsTok_op [o] hop, hop, shuntPopOps_parenTop]]
    rw [ihb hgb _ _ _]
    rw [show shuntLoop (([')']) :: rest) (out ++ postToks a ++ postToks b)
          (([o]) :: (['(']) :: st)
        = shuntLoop rest (out ++ postToks a ++ postToks b ++ [[o]]) st from by
      have hpu : shuntPopUntilParen (([o]) :: (['(']) :: st)
          = ([[o]], (['(']) :: st) := by
        simp [shuntPopUntilParen, hone]
      simp [shuntLoop, hpu, show isDigitsTok [')'] = false from by decide,
            show isOperatorTok [')'] = false from by decide,
            show ¬ (([')'] : List Char) = ['(']) from by decide]]
    rw [show postToks (Expr.binE [o] a b) = postToks a ++ postToks b ++ [[o]] from rfl]
    simp [List.append_assoc]

theorem parsePost_postToks (ts : List (List Char)) :
    ∀ (st st' : List Expr), parsePost ts st = some st' →
      (st'.reverse.map postToks).flatten = (st.reverse.map postToks).flatten ++ ts := by
  induction ts with
  | nil =>
    intro st st' hp
    rw [← Option.some.inj hp]
    simp
  | cons tok rest ih =>
    intro st st' hp
    by_cases hcl : classifyTokenS tok = "OPERAND"
    · rw [show parsePost (tok :: rest) st = parsePost rest (Expr.leafE tok :: st) from by
        simp [parsePost, hcl]] at hp
      rw [ih _ _ hp]
      simp [postToks]
    · cases st with
      | nil => simp [parsePost, hcl] at hp
      | cons b st1 =>
        cases st1 with
        | nil => simp [parsePost, hcl] at hp
        | cons a st2 =>
          rw [show parsePost (tok :: rest) (b :: a :: st2)
              = parsePost rest (Expr.binE tok a b :: st2) from by
            simp [parsePost, hcl]] at hp
          rw [ih _ _ hp]
          simp [postToks]

/-! ### C6: the infix PDA accepts every rendered expression -/

def qStartS : PdaState := ⟨"q_start", StateType.INITIAL⟩

def qOperandS : PdaState := ⟨"q_expect_operand", StateType.NORMAL⟩

def qOperatorS : PdaState := ⟨"q_expect_operator", StateType.NORMAL⟩

def tInf1 : PdaTransition := ⟨qStartS, qOperatorS, some "OPERAND", none, "none"⟩

def tInf2 : PdaTransition := ⟨qStartS, qOperandS, some "LPAREN", none, "push:("⟩

def tInf3 : PdaTransition := ⟨qOperandS, qOperatorS, some "OPERAND", none, "none"⟩

def tInf4 : PdaTransition := ⟨qOperandS, qOperandS, some "LPAREN", none, "push:("⟩

def tInf5 : PdaTransition := ⟨qOperatorS, qOperandS, some "OPERATOR", none, "none"⟩

def tInf6 : PdaTransition := ⟨qOperatorS, qOperatorS, some "RPAREN", some "(", "pop"⟩

theorem infixPda_transitions :
    infixPdaInit.transitions = [tInf1, tInf2, tInf3, tInf4, tInf5, tInf6] := by
  decide

/-- A machine sharing the infix validator's state table and transitions. -/
def IsInfixCfg (m : Pda) : Prop :=
  m.states = infixPdaInit.states ∧ m.transitions = infixPdaInit.transitions

theorem infix_step_operand (m : Pda) (hcfg : IsInfixCfg m)
    (hcur : m.currentState = qStartS ∨ m.currentState = qOperandS) :
    ∃ m', m.stepPda "OPERAND" = (m', true, none) ∧ IsInfixCfg m'
      ∧ m'.currentState = qOperatorS ∧ m'.stack.stackL = m.stack.stackL := by
  rcases hcur with hcur | hcur
  · have hft : m.findTransition "OPERAND" = some tInf1 := by
      simp only [Pda.findTransition]
      rw [hcfg.2, infixPda_transitions, hcur]
      rw [List.find?_cons_of_pos _ (by simp [PdaTransition.matchesCfg, tInf1, qStartS])]
    have hstep := stepPda_ok m "OPERAND" tInf1 m.stack hft (execActionNone m.stack)
    exact ⟨_, hstep, ⟨hcfg.1, hcfg.2⟩, rfl, rfl⟩
  · have hft : m.findTransition "OPERAND" = some tInf3 := by
      simp only [Pda.findTransition]
      rw [hcfg.2, infixPda_transitions, hcur]
      rw [List.find?_cons_of_neg _ (by simp [PdaTransition.matchesCfg, tInf1, qStartS, qOperandS]),
          List.find?_cons_of_neg _ (by simp [PdaTransition.matchesCfg, tInf2, qStartS, qOperandS]),
          List.find?_cons_of_pos _ (by simp [PdaTransition.matchesCfg, tInf3, qOperandS])]
    have hstep := stepPda_ok m "OPERAND" tInf3 m.stack hft (execActionNone m.stack)
    exact ⟨_, hstep, ⟨hcfg.1, hcfg.2⟩, rfl, rfl⟩

theorem infix_step_lparen (m : Pda) (hcfg : IsInfixCfg m)
    (hcur : m.currentState = qStartS ∨ m.currentState = qOperandS) :
    ∃ m', m.stepPda "LPAREN" = (m', true, none) ∧ IsInfixCfg m'
      ∧ m'.currentState = qOperandS
      ∧ m'.stack.stackL = m.stack.stackL ++ ["("] := by
  have hact : executeStackAction m.stack ("push:(") = (m.stack.pushS ("("), true) := by
    rw [show ("push:(" : String) = "push:" ++ "(" from rfl]
    exact execActionPush m.stack ("(")
  rcases hcur with hcur | hcur
  · have hft : m.findTransition "LPAREN" = some tInf2 := by
      simp only [Pda.findTransition]
      rw [hcfg.2, infixPda_transitions, hcur]
      rw [List.find?_cons_of_neg _ (by simp [PdaTransition.matchesCfg, tInf1, qStartS]),
          List.find?_cons_of_pos _ (by simp [PdaTransition.matchesCfg, tInf2, qStartS])]
    have hstep := stepPda_ok m "LPAREN" tInf2 (m.stack.pushS ("(")) hft hact
    exact ⟨_, hstep, ⟨hcfg.1, hcfg.2⟩, rfl, rfl⟩
  · have hft : m.findTransition "LPAREN" = some tInf4 := by
      simp only [Pda.findTransition]
      rw [hcfg.2, infixPda_transitions, hcur]
      rw [List.find?_cons_of_neg _ (by simp [PdaTransition.matchesCfg, tInf1, qStartS, qOperandS]),
          List.find?_cons_of_neg _ (by simp [PdaTransition.matchesCfg, tInf2, qStartS, qOperandS]),
          List.find?_cons_of_neg _ (by simp [PdaTransition.matchesCfg, tInf3, qOperandS]),
          List.find?_cons_of_pos _ (by simp [PdaTransition.matchesCfg, tInf4, qOperandS])]
    have hstep := stepPda_ok m "LPAREN" tInf4 (m.stack.pushS ("(")) hft hact
    exact ⟨_, hstep, ⟨hcfg.1, hcfg.2⟩, rfl, rfl⟩

theorem infix_step_operator (m : Pda) (hcfg : IsInfixCfg m)
    (hcur : m.currentState = qOperatorS) :
    ∃ m', m.stepPda "OPERATOR" = (m', true, none) ∧ IsInfixCfg m'
      ∧ m'.currentState = qOperandS ∧ m'.stack.stackL = m.stack.stackL := by
  have hft : m.findTransition "OPERATOR" = some tInf5 := by
    simp only [Pda.findTransition]
    rw [hcfg.2, infixPda_transitions, hcur]
    rw [List.find?_cons_of_neg _ (by simp [PdaTransition.matchesCfg, tInf1, qStartS, qOperatorS]),
        List.find?_cons_of_neg _ (by simp [PdaTransition.matchesCfg, tInf2, qStartS, qOperatorS]),
        List.find?_cons_of_neg _ (by simp [PdaTransition.matchesCfg, tInf3, qOperandS, qOperatorS]),
        List.find?_cons_of_neg _ (by simp [PdaTransition.matchesCfg, tInf4, qOperandS, qOperatorS]),
        List.find?_cons_of_pos _ (by simp [PdaTransition.matchesCfg, tInf5, qOperatorS])]
  have hstep := stepPda_ok m "OPERATOR" tInf5 m.stack hft (execActionNone m.stack)
  exact ⟨_, hstep, ⟨hcfg.1, hcfg.2⟩, rfl, rfl⟩

theorem infix_step_rparen (m : Pda) (hcfg : IsInfixCfg m)
    (hcur : m.currentState = qOperatorS) (base : List String) (hbase : base ≠ [])
    (hstk : m.stack.stackL = base ++ ["("]) :
    ∃ m', m.stepPda "RPAREN" = (m', true, none) ∧ IsInfixCfg m'
      ∧ m'.currentState = qOperatorS ∧ m'.stack.stackL = base := by
  have hpeek : m.stack.peekS = some ("(") := by
    unfold PdaStack.peekS
    rw [hstk]
    exact List.getLast?_concat _
  have hft : m.findTransition "RPAREN" = some tInf6 := by
    simp only [Pda.findTransition]
    rw [hcfg.2, infixPda_transitions, hcur, hpeek]
    rw [List.find?_cons_of_neg _ (by simp [PdaTransition.matchesCfg, tInf1, qStartS, qOperatorS]),
        List.find?_cons_of_neg _ (by simp [PdaTransition.matchesCfg, tInf2, qStartS, qOperatorS]),
        List.find?_cons_of_neg _ (by simp [PdaTransition.matchesCfg, tInf3, qOperandS, qOperatorS]),
        List.find?_cons_of_neg _ (by simp [PdaTransition.matchesCfg, tInf4, qOperandS, qOperatorS]),
        List.find?_cons_of_neg _ (by simp [PdaTransition.matchesCfg, tInf5, qOperatorS]),
        List.find?_cons_of_pos _ (by simp [PdaTransition.matchesCfg, tInf6, qOperatorS])]
  have hlen : 1 < m.stack.stackL.length := by
    rw [hstk]
    have := List.length_pos.2 hbase
    simp only [List.length_append, List.length_cons, List.length_nil]
    omega
  obtain ⟨sym, hgl, hpop⟩ := popS_spec m.stack hlen
  have hact : executeStackAction m.stack ("pop") = (m.stack.popS.2, true) := by
    rw [execActionPop]
    rw [hpop]
    rfl
  have hstep := stepPda_ok m "RPAREN" tInf6 m.stack.popS.2 hft hact
  refine ⟨_, hstep, ⟨hcfg.1, hcfg.2⟩, rfl, ?_⟩
  show m.stack.popS.2.stackL = base
  rw [hpop]
  show m.stack.stackL.dropLast = base
  rw [hstk]
  exact List.dropLast_concat

theorem infixStepsThrough_cons_ok (m m' : Pda) (tok : List Char)
    (rest : List (List Char)) (msg : Option Msg)
    (h : m.stepPda (classifyTokenS tok) = (m', true, msg)) :
    infixStepsThrough m (tok :: rest) = infixStepsThrough m' rest := by
  simp only [infixStepsThrough]
  rw [h]

theorem infixToks_not_invalid (T : Expr) (hg : GoodTree T) :
    ∀ t ∈ infixToks T, classifyTokenS t ≠ "INVALID" := by
  induction T with
  | leafE tok =>
    intro t ht
    obtain ⟨d, hd, rfl⟩ := hg
    rw [show infixToks (Expr.leafE [d]) = [[d]] from rfl] at ht
    rw [List.mem_singleton] at ht
    rw [ht, classify_digit d hd]
    simp
  | binE op a b iha ihb =>
    obtain ⟨hop, hga, hgb⟩ := hg
    intro t ht
    rw [show infixToks (Expr.binE op a b)
        = [['(']] ++ infixToks a ++ [op] ++ infixToks b ++ [[')']] from rfl] at ht
    simp only [List.mem_append, List.mem_singleton] at ht
    rcases ht with (((ht | ht) | ht) | ht) | ht
    · rw [ht, classify_lparen]
      simp
    · exact iha hga t ht
    · rw [ht, classify_of_op op hop]
      simp
    · exact ihb hgb t ht
    · rw [ht, classify_rparen]
      simp

theorem infixRunTree (T : Expr) (hg : GoodTree T) :
    ∀ (rest : List (List Char)) (m : Pda),
      IsInfixCfg m →
      (m.currentState = qStartS ∨ m.currentState = qOperandS) →
      m.stack.stackL ≠ [] →
      ∃ m', infixStepsThrough m (infixToks T ++ rest) = infixStepsThrough m' rest
        ∧ IsInfixCfg m' ∧ m'.currentState = qOperatorS
        ∧ m'.stack.stackL = m.stack.stackL := by
  induction T with
  | leafE tok =>
    intro rest m hcfg hcur _
    obtain ⟨d, hd, rfl⟩ := hg
    obtain ⟨m', hstep, hcfg', hcur', hstk'⟩ := infix_step_operand m hcfg hcur
    refine ⟨m', ?_, hcfg', hcur', hstk'⟩
    rw [show infixToks (Expr.leafE [d]) ++ rest = [d] :: rest from rfl]
    exact infixStepsThrough_cons_ok m m' [d] rest none
      (by rw [classify_digit d hd]; exact hstep)
  | binE op a b iha ihb =>
    intro rest m hcfg hcur hne
    obtain ⟨hop, hga, hgb⟩ := hg
    obtain ⟨m1, hs1, hcfg1, hcur1, hstk1⟩ := infix_step_lparen m hcfg hcur
    obtain ⟨m2, hs2, hcfg2, hcur2, hstk2⟩ :=
      iha hga (op :: (infixToks b ++ ([')'] :: rest))) m1 hcfg1 (Or.inr hcur1)
        (by rw [hstk1]; simp)
    obtain ⟨m3, hs3, hcfg3, hcur3, hstk3⟩ := infix_step_operator m2 hcfg2 hcur2
    obtain ⟨m4, hs4, hcfg4, hcur4, hstk4⟩ :=
      ihb hgb ([')'] :: rest) m3 hcfg3 (Or.inr hcur3)
        (by rw [hstk3, hstk2, hstk1]; simp)
    have hstk4' : m4.stack.stackL = m.stack.stackL ++ ["("] := by
      rw [hstk4, hstk3, hstk2, hstk1]
    obtain ⟨m5, hs5, hcfg5, hcur5, hstk5⟩ :=
      infix_step_rparen m4 hcfg4 hcur4 m.stack.stackL hne hstk4'
    refine ⟨m5, ?_, hcfg5, hcur5, by rw [hstk5]⟩
    rw [show infixToks (Expr.binE op a b) ++ rest
        = ['('] :: (infixToks a ++ (op :: (infixToks b ++ ([')'] :: rest)))) from by
      simp [infixToks]]
    rw [infixStepsThrough_cons_ok m m1 ['('] _ none
      (by rw [classify_lparen]; exact hs1)]
    rw [hs2]
    rw [infixStepsThrough_cons_ok m2 m3 op _ none
      (by rw [classify_of_op op hop]; exact hs3)]
    rw [hs4]
    rw [infixStepsThrough_cons_ok m4 m5 [')'] rest none
      (by rw [classify_rparen]; exact hs5)]

theorem infixValidate_render (T : Expr) (hg : GoodTree T) :
    (infixValidateL (renderE T)).isValid = true := by
  have htoks := tokenizeInfix_render T hg
  have hne : infixToks T ≠ [] := by
    cases T <;> simp [infixToks]
  have hno : ∀ t ∈ infixToks T, classifyTokenS t ≠ "INVALID" := infixToks_not_invalid T hg
  obtain ⟨mf, hsteps, hcfgf, hcurf, hstkf⟩ :=
    infixRunTree T hg [] (infixPdaInit.resetPda) ⟨rfl, rfl⟩ (Or.inl (by decide))
      (by decide)
  rw [List.append_nil] at hsteps
  have hsteps' : infixStepsThrough (infixPdaInit.resetPda) (infixToks T) = some mf := by
    rw [hsteps]
    rfl
  have hstkval : mf.stack.stackL = ["Z0"] := by
    rw [hstkf]
    decide
  have hname : mf.currentState.name = "q_expect_operator" := by
    rw [hcurf]
    rfl
  have hemp : mf.stack.isEmptyS = true := by
    unfold PdaStack.isEmptyS
    rw [hstkval]
    decide
  simp only [infixValidateL]
  rw [htoks, if_neg hne]
  rw [(infixLoop_run (infixToks T) (infixPdaInit.resetPda) hno).1 mf hsteps']
  simp only [infixFinalCheck]
  rw [if_pos ⟨hname, hemp⟩]

theorem infixToPostfix_render (tree : Expr) (hgood : GoodTree tree) :
    infixToPostfixC (renderE tree) = ⟨true, joinSpace (postToks tree)⟩ := by
  simp only [infixToPostfixC]
  rw [if_pos (infixValidate_render tree hgood)]
  rw [tokenizeInfix_render tree hgood]
  have hsh := shuntLoop_tree tree hgood [] [] []
  rw [List.append_nil] at hsh
  rw [hsh]
  simp [shuntLoop]

/-- C6: the round trip `infix_to_postfix (postfix_to_infix s) = s` holds for
every valid postfix expression whose operands are single digits, PROVIDED the
tokens of `s` are separated by exactly one space (`s = joinSpace ts`); the
original claim, quantified over every valid single-digit-operand postfix
string, fails on extra whitespace (see the counterexample). -/
theorem c6RoundTrip (ts : List (List Char))
    (hall : ∀ t ∈ ts, SingleDigitOrOp t)
    (hvalid : (postfixValidateL (joinSpace ts)).isValid = true) :
    i2pS (p2iS (joinSpace ts)) = joinSpace ts := by
  have htok : tokenizePostfixL (joinSpace ts) = ts := tokenizePostfix_joinSpace ts hall
  have hvalid' : (postfixCoreOnTokens ts).isValid = true := by
    have hv : postfixValidateL (joinSpace ts) = postfixCoreOnTokens ts := by
      unfold postfixValidateL
      rw [htok]
    rw [← hv]
    exact hvalid
  obtain ⟨tree, hps, hgood⟩ := valid_postfix_to_tree ts hall hvalid'
  rw [p2iS_render ts tree hall hvalid htok hps]
  have hpt : postToks tree = ts := by
    have h := parsePost_postToks ts [] [tree] hps
    simpa using h
  simp only [i2pS]
  rw [infixToPostfix_render tree hgood, hpt]
  rfl

/-- C6 counterexample: `"3  4 +"` (two spaces) is a valid postfix expression
with single-digit operands, but the round trip returns `"3 4 +"`, which is a
different string. -/
theorem c6Counterexample :
    (postfixValidateL (("3  4 +").data)).isValid = true
    ∧ i2pS (p2iS (("3  4 +").data)) = ("3 4 +").data
    ∧ ("3 4 +").data ≠ ("3  4 +").data := by
  refine ⟨by decide, by decide, by decide⟩

/-- C6 witness: the round-trip theorem applied to the token list of
`"3 4 +"`. -/
theorem c6Witness : i2pS (p2iS (joinSpace [['3'], ['4'], ['+']])) = joinSpace [['3'], ['4'], ['+']] := by
  refine c6RoundTrip [['3'], ['4'], ['+']] ?_ (by decide)
  intro t ht
  simp only [List.mem_cons, List.not_mem_nil, or_false] at ht
  rcases ht with rfl | rfl | rfl
  · exact Or.inl ⟨'3', by decide, rfl⟩
  · exact Or.inl ⟨'4', by decide, rfl⟩
  · exact Or.inr (by decide)

end AutomataSpec
